import Mathlib

/-!
Verification of the 21Cloud-Dashboard data pipeline.

This file gives a shallow embedding, in Lean 4, of the data-normalisation and
scoring pipeline of the dashboard: the exposure scorer and phase classifier
(`js/exposure.js` together with the weights of `js/config.js`), the CSV line
and field splitters (`portfolio.js`), the header deduplication and cell typing
of the sheet parser (`sheets.js`), the cross-screen reconciler and the header
sort comparator (`screener.js`), and the short date label formatter
(`market.js`).

JavaScript numbers are modelled as exact rationals (`ℚ`); `Math.round` is
modelled as rounding half towards positive infinity, which is its behaviour on
the magnitudes involved.  Fields that may be missing or unparseable
(`parseFloat` returning `NaN`) are modelled as `Option ℚ`, with `none` for the
`NaN`/missing case.
-/

namespace CloudDash

/-- JavaScript `Math.round`: round half towards `+∞`. -/
def jsRound (q : ℚ) : ℤ := ⌊q + 1 / 2⌋

/-- `Math.round(q * 10) / 10` — round to one decimal place. -/
def round1 (q : ℚ) : ℚ := (jsRound (q * 10) : ℚ) / 10

/-- `Math.round(q * 100) / 100` — round to two decimal places. -/
def round2 (q : ℚ) : ℚ := (jsRound (q * 100) : ℚ) / 100

/-- JavaScript `parseFloat(x) || d`: the default `d` is used both when the
value is missing or unparseable (`NaN`, modelled by `none`) and when it parses
to `0`, because `0` is falsy in JavaScript. -/
def jsOr (x : Option ℚ) (d : ℚ) : ℚ :=
  match x with
  | none => d
  | some q => if q = 0 then d else q

/-- JavaScript `Math.min` on two (non-`NaN`) numbers. -/
def jsMin (a b : ℚ) : ℚ := if a ≤ b then a else b

theorem jsMin_eq_min (a b : ℚ) : jsMin a b = min a b := by
  rw [jsMin, min_def]

/-! ## Exposure scorer (`js/exposure.js` + `EXPOSURE` of `js/config.js`) -/

/-- One row of the market-index table: the `Dist_21EMA%` and `Dist_50MA%`
cells, as seen by `parseFloat` (`none` = missing or unparseable). -/
structure IndexRow where
  d21 : Option ℚ
  d50 : Option ℚ

/-- The breadth summary handed to `calcExposure`
(`{ toraku25, newHigh, newLow, advPct }`). -/
structure Breadth where
  toraku25 : Option ℚ
  newHigh : Option ℚ
  newLow : Option ℚ
  advPct : Option ℚ

/-- One row of the sector table: the `Sector` name cell and the `RS_21`,
`ER_1W` and `Band80_Pct` cells. -/
structure SectorRow where
  sector : Option String
  rs21 : Option ℚ
  er1w : Option ℚ
  b80 : Option ℚ

/-- JavaScript truthiness of the `Sector` cell (`sectors.filter(s => s.Sector)`):
present and a non-empty string. -/
def sectorTruthy (o : Option String) : Bool :=
  match o with
  | none => false
  | some s => s ≠ ""

/-- `PHASE` thresholds of `config.js`. -/
def phaseStrongRs : ℚ := 50
def phaseImprovingRs : ℚ := 30
def phaseStallingRs : ℚ := 30

/-- `derivePhase` of `exposure.js`: sector phase 1–4 from the 21-day
relative strength (`parseFloat(sector.RS_21) || 50`) and the one-week
earnings revision (`parseFloat(sector.ER_1W) || 0`). -/
def derivePhase (s : SectorRow) : ℕ :=
  let rs21 := jsOr s.rs21 50
  let er1w := jsOr s.er1w 0
  if phaseStrongRs ≤ rs21 ∧ 0 < er1w then 4
  else if 0 < er1w ∧ phaseImprovingRs ≤ rs21 then 3
  else if er1w ≤ 0 ∧ phaseStallingRs ≤ rs21 then 2
  else 1

/-- `EXPOSURE.weights` of `config.js`. -/
def wEma21 : ℚ := 35
def wSma50 : ℚ := 10
def wToraku : ℚ := 17
def wNhNl : ℚ := 13
def wAdvPct : ℚ := 10
def wSectorBreadth : ℚ := 15

/-- `EXPOSURE.insideBand`. -/
def insideBand : ℚ := 1

/-- Per-index share for an index above its 21-EMA band:
`Math.round(W.ema21 / 3 * 100) / 100`. -/
def perIdx1 : ℚ := round2 (wEma21 / 3)

/-- Per-index share for an index inside its 21-EMA band:
`Math.round(W.ema21 / 6 * 100) / 100`. -/
def halfIdx1 : ℚ := round2 (wEma21 / 6)

/-- Per-index share for factor ② : `Math.round(W.sma50 / 3 * 100) / 100`. -/
def perIdx2 : ℚ := round2 (wSma50 / 3)

/-- One step of the factor-① accumulation over the index rows. -/
def s1Step (acc : ℚ) (idx : IndexRow) : ℚ :=
  let d21 := jsOr idx.d21 0
  if insideBand < d21 then acc + perIdx1
  else if -insideBand < d21 then acc + halfIdx1
  else acc

/-- Factor ① (Index × 21EMA): each index contributes `perIdx1` when its
21-EMA distance is above the band, `halfIdx1` when inside it, `0` below;
the sum is rounded to one decimal. -/
def s1Pts (indices : List IndexRow) : ℚ :=
  round1 (indices.foldl s1Step 0)

/-- One step of the factor-② accumulation over the index rows. -/
def s2Step (acc : ℚ) (idx : IndexRow) : ℚ :=
  if 0 < jsOr idx.d50 0 then acc + perIdx2 else acc

/-- Factor ② (Index × 50SMA): each index with positive 50-MA distance
contributes `perIdx2`; the sum is rounded to one decimal. -/
def s2Pts (indices : List IndexRow) : ℚ :=
  round1 (indices.foldl s2Step 0)

/-- Factor ③ (騰落レシオ 25): six-bucket step function over the ratio,
with the thresholds and step scores of `EXPOSURE.toraku`. -/
def torakuPts (t : ℚ) : ℚ :=
  if 140 < t then 0
  else if 120 < t then 3
  else if 100 ≤ t then 17
  else if 80 ≤ t then 11
  else if 70 ≤ t then 6
  else 2

/-- Warning label of factor ③. -/
def torakuWarning (t : ℚ) : Option String :=
  if 120 < t then (if 140 < t then some "danger" else some "warn") else none

/-- Factor ④ (NH/NL ratio): base share of `W.nhNl - 3` by the NH ratio
(0 when `nh + nl` is 0), plus a bonus of 3 when `nh ≥ 100`, else 2 when
`nh ≥ 50`; rounded and clamped to the weight ceiling 13. -/
def nhNlPts (nh nl : ℚ) : ℚ :=
  let base := if 0 < nh + nl then round1 (nh / (nh + nl) * (wNhNl - 3)) else 0
  let withBonus := if 100 ≤ nh then base + 3 else if 50 ≤ nh then base + 2 else base
  jsMin wNhNl (round1 withBonus)

/-- Factor ⑤ (advancing percentage): first matching threshold of
`EXPOSURE.advPctSteps`, else 0. -/
def advPctPts (ap : ℚ) : ℚ :=
  if 55 ≤ ap then 10 else if 45 ≤ ap then 7 else if 35 ≤ ap then 4 else 0

/-- Factor ⑥ (sector breadth): ratio of phase-4 sectors among the sectors
with a truthy name, times `W.sectorBreadth - 5`, rounded; plus a bonus of 5
when the average `Band80_Pct` reaches 20; clamped to the ceiling 15. -/
def sectorPts (sectors : List SectorRow) : ℚ :=
  let valid := sectors.filter (fun s => sectorTruthy s.sector)
  let phase4Count := (valid.filter (fun s => derivePhase s = 4)).length
  let b80Sum := valid.foldl (fun acc s => acc + jsOr s.b80 0) 0
  let phase4Ratio := if 0 < valid.length then (phase4Count : ℚ) / (valid.length : ℚ) else 0
  let b80Avg := if 0 < valid.length then b80Sum / (valid.length : ℚ) else 0
  let base := round1 (phase4Ratio * (wSectorBreadth - 5))
  let withBonus := if 20 ≤ b80Avg then base + 5 else base
  jsMin wSectorBreadth withBonus

/-- One entry of the `components` breakdown of the exposure score. -/
structure Comp where
  name : String
  pts : ℚ
  max : ℚ
  warningLabel : Option String
deriving DecidableEq

/-- Result of `calcExposure`. -/
structure ExpResult where
  score : ℚ
  label : String
  components : List Comp
  killSwitch : Bool
  raw : ℚ
deriving DecidableEq

/-- `calcExposure` of `exposure.js`: six weighted factors, kill switch when
factor ① is exactly 0, total clamped to 100 and rounded to one decimal,
label by thresholds on the displayed score. -/
def calcExposure (indices : List IndexRow) (breadth : Breadth)
    (sectors : List SectorRow) : ExpResult :=
  let s1 := s1Pts indices
  let killSwitch := s1 = 0
  let s2 := s2Pts indices
  let t := jsOr breadth.toraku25 0
  let s3 := torakuPts t
  let s4 := nhNlPts (jsOr breadth.newHigh 0) (jsOr breadth.newLow 0)
  let s5 := advPctPts (jsOr breadth.advPct 0)
  let s6 := sectorPts sectors
  let components : List Comp :=
    [⟨"Index×21EMA", s1, wEma21, none⟩,
     ⟨"Index×50SMA", s2, wSma50, none⟩,
     ⟨"騰落レシオ(25)", s3, wToraku, torakuWarning t⟩,
     ⟨"NH/NL比率", s4, wNhNl, none⟩,
     ⟨"値上がり率", s5, wAdvPct, none⟩,
     ⟨"Sector Breadth", s6, wSectorBreadth, none⟩]
  let raw := components.foldl (fun acc c => acc + c.pts) 0
  let score := if killSwitch then 0 else round1 (jsMin 100 raw)
  let label :=
    if killSwitch then "RISK OFF"
    else if 80 ≤ score then "AGGRESSIVE"
    else if 60 ≤ score then "BULLISH"
    else if 40 ≤ score then "CAUTIOUS"
    else if 20 ≤ score then "DEFENSIVE"
    else "RISK OFF"
  ⟨score, label, components, killSwitch, round1 raw⟩

/-! ## Basic rounding facts -/

theorem round1_zero : round1 0 = 0 := by
  norm_num [round1, jsRound]

theorem jsRound_mono {a b : ℚ} (h : a ≤ b) : jsRound a ≤ jsRound b := by
  unfold jsRound
  exact Int.floor_le_floor (by linarith)

theorem round1_mono {a b : ℚ} (h : a ≤ b) : round1 a ≤ round1 b := by
  unfold round1
  have := jsRound_mono (show a * 10 ≤ b * 10 by linarith)
  have h10 : (0 : ℚ) < 10 := by norm_num
  rw [div_le_div_iff_of_pos_right h10]
  exact_mod_cast this

theorem round1_nonneg {a : ℚ} (h : 0 ≤ a) : 0 ≤ round1 a := by
  have := round1_mono h
  rwa [round1_zero] at this

theorem round1_add_int (x : ℚ) (n : ℤ) : round1 (x + n) = round1 x + n := by
  unfold round1 jsRound
  have h : (x + n) * 10 + 1 / 2 = x * 10 + 1 / 2 + ((10 * n : ℤ) : ℚ) := by
    push_cast
    ring
  rw [h, Int.floor_add_int]
  push_cast
  ring

theorem round1_round1 (x : ℚ) : round1 (round1 x) = round1 x := by
  unfold round1 jsRound
  have h10 : (10 : ℚ) ≠ 0 := by norm_num
  have h : (⌊x * 10 + 1 / 2⌋ : ℚ) / 10 * 10 + 1 / 2 = 1 / 2 + (⌊x * 10 + 1 / 2⌋ : ℚ) := by
    field_simp
    ring
  rw [h, Int.floor_add_int]
  norm_num

/-! ## C1: the kill switch -/

theorem s1Step_below (acc : ℚ) (idx : IndexRow) (q : ℚ)
    (h1 : idx.d21 = some q) (h2 : q ≤ -insideBand) : s1Step acc idx = acc := by
  have hq0 : ¬ q = 0 := by
    intro h
    rw [h] at h2
    norm_num [insideBand] at h2
  have hband : ¬ insideBand < q := by
    simp only [insideBand] at h2 ⊢
    intro h
    linarith
  have hband2 : ¬ -insideBand < q := by
    intro h
    linarith
  simp only [s1Step, jsOr, h1, if_neg hq0, if_neg hband, if_neg hband2]

theorem s1_fold_below (l : List IndexRow) (acc : ℚ)
    (h : ∀ idx ∈ l, ∃ q, idx.d21 = some q ∧ q ≤ -insideBand) :
    l.foldl s1Step acc = acc := by
  induction l generalizing acc with
  | nil => rfl
  | cons x xs ih =>
    obtain ⟨q, hq1, hq2⟩ := h x (List.mem_cons_self x xs)
    rw [List.foldl_cons, s1Step_below acc x q hq1 hq2]
    exact ih acc (fun idx hidx => h idx (List.mem_cons_of_mem x hidx))

theorem s1Pts_below (indices : List IndexRow)
    (h : ∀ idx ∈ indices, ∃ q, idx.d21 = some q ∧ q ≤ -insideBand) :
    s1Pts indices = 0 := by
  rw [s1Pts, s1_fold_below indices 0 h, round1_zero]

/-- Claim C1: on any `calcExposure` input in which every index row's
`Dist_21EMA%` cell holds a number at most `-insideBand` (the band is 1.0),
the Index×21EMA component scores 0 points, the kill switch is on, the
returned score is 0 and the label is RISK OFF, whatever the other five
factors contribute. -/
theorem calcExposure_killSwitch (indices : List IndexRow) (b : Breadth)
    (sectors : List SectorRow)
    (h : ∀ idx ∈ indices, ∃ q, idx.d21 = some q ∧ q ≤ -insideBand) :
    (calcExposure indices b sectors).components.head? =
      some ⟨"Index×21EMA", 0, wEma21, none⟩ ∧
    (calcExposure indices b sectors).killSwitch = true ∧
    (calcExposure indices b sectors).score = 0 ∧
    (calcExposure indices b sectors).label = "RISK OFF" := by
  have hs1 : s1Pts indices = 0 := s1Pts_below indices h
  simp [calcExposure, hs1]

/-- Witness for C1: a concrete input whose three index rows all sit 2 %
below their 21-EMA while the five other factors contribute 65 points
(more than 60); the kill switch still forces score 0 and RISK OFF. -/
theorem calcExposure_killSwitch_witness :
    (∀ idx ∈ [(⟨some (-2), some 5⟩ : IndexRow), ⟨some (-2), some 5⟩, ⟨some (-2), some 5⟩],
      ∃ q, idx.d21 = some q ∧ q ≤ -insideBand) ∧
    ((calcExposure
        [⟨some (-2), some 5⟩, ⟨some (-2), some 5⟩, ⟨some (-2), some 5⟩]
        ⟨some 110, some 200, some 0, some 60⟩
        [⟨some ("A"), some 60, some 1, some 50⟩, ⟨some ("B"), some 60, some 1, some 50⟩]).score = 0 ∧
      (calcExposure
        [⟨some (-2), some 5⟩, ⟨some (-2), some 5⟩, ⟨some (-2), some 5⟩]
        ⟨some 110, some 200, some 0, some 60⟩
        [⟨some ("A"), some 60, some 1, some 50⟩, ⟨some ("B"), some 60, some 1, some 50⟩]).label = "RISK OFF") := by
  have harg : ∀ idx ∈ [(⟨some (-2), some 5⟩ : IndexRow), ⟨some (-2), some 5⟩, ⟨some (-2), some 5⟩],
      ∃ q, idx.d21 = some q ∧ q ≤ -insideBand := by
    intro idx hidx
    fin_cases hidx <;> exact ⟨-2, rfl, by norm_num [insideBand]⟩
  have hmain := calcExposure_killSwitch
    [⟨some (-2), some 5⟩, ⟨some (-2), some 5⟩, ⟨some (-2), some 5⟩]
    ⟨some 110, some 200, some 0, some 60⟩
    [⟨some ("A"), some 60, some 1, some 50⟩, ⟨some ("B"), some 60, some 1, some 50⟩] harg
  exact ⟨harg, hmain.2.2.1, hmain.2.2.2⟩

/-! ## C2: the phase classifier -/

/-- Claim C2, counterexample: on a sector row whose `RS_21` cell is the
number 0 and whose `ER_1W` cell is −1, `derivePhase` returns phase 2, not
phase 1 as the claim states: `parseFloat(sector.RS_21) || 50` replaces a
parsed 0 by the default 50, because 0 is falsy in JavaScript. -/
theorem derivePhase_rs_zero_counterexample :
    derivePhase ⟨some ("A"), some 0, some (-1), none⟩ = 2 ∧
    ¬ derivePhase ⟨some ("A"), some 0, some (-1), none⟩ = 1 := by
  constructor <;> decide

/-- Claim C2, amended: `derivePhase` always returns one of 1, 2, 3, 4; a
missing `RS_21` behaves like 50 and a missing `ER_1W` like 0; but the
default 50 also applies when `RS_21` parses to the number 0 (JavaScript
falsy default), so (RS = 50, rev = 1) gives phase 4, (30, 1) gives 3,
(30, 0) gives 2, and (RS = 0, rev = −1) gives phase 2 rather than 1. -/
theorem derivePhase_total_and_cases :
    (∀ s : SectorRow, derivePhase s = 1 ∨ derivePhase s = 2 ∨
      derivePhase s = 3 ∨ derivePhase s = 4) ∧
    (∀ n er b80, derivePhase ⟨n, none, er, b80⟩ = derivePhase ⟨n, some 50, er, b80⟩) ∧
    (∀ n er b80, derivePhase ⟨n, some 0, er, b80⟩ = derivePhase ⟨n, some 50, er, b80⟩) ∧
    (∀ n rs b80, derivePhase ⟨n, rs, none, b80⟩ = derivePhase ⟨n, rs, some 0, b80⟩) ∧
    derivePhase ⟨some ("A"), some 50, some 1, none⟩ = 4 ∧
    derivePhase ⟨some ("A"), some 30, some 1, none⟩ = 3 ∧
    derivePhase ⟨some ("A"), some 30, some 0, none⟩ = 2 ∧
    derivePhase ⟨some ("A"), some 0, some (-1), none⟩ = 2 := by
  refine ⟨?_, ?_, ?_, ?_, by decide, by decide, by decide, by decide⟩
  · intro s
    unfold derivePhase
    dsimp only
    split_ifs <;> simp
  · intro n er b80
    simp [derivePhase, jsOr]
  · intro n er b80
    simp [derivePhase, jsOr]
  · intro n rs b80
    rfl

/-! ## C5: the NH/NL factor -/

/-- The NH-count bonus of factor ④, factored out of the if-chain of the
source (`EXPOSURE.nhBonus`). -/
def nhNlBonus (nh : ℚ) : ℚ := if 100 ≤ nh then 3 else if 50 ≤ nh then 2 else 0

/-- The NH/NL factor as the specification words it: base points are the NH
share of `weight − bonusCeiling` (0 when the counts sum to 0), plus the
bonus, rounded to one decimal and clamped to the weight ceiling. -/
def nhNlSpec (nh nl : ℚ) : ℚ :=
  jsMin wNhNl (round1 ((if 0 < nh + nl then nh / (nh + nl) * (wNhNl - 3) else 0) + nhNlBonus nh))

theorem withBonus_eq (base nh : ℚ) :
    (if 100 ≤ nh then base + 3 else if 50 ≤ nh then base + 2 else base) =
      base + nhNlBonus nh := by
  unfold nhNlBonus
  split_ifs <;> ring

theorem nhNlPts_eq (nh nl : ℚ) :
    nhNlPts nh nl =
      jsMin wNhNl (round1 ((if 0 < nh + nl then round1 (nh / (nh + nl) * (wNhNl - 3)) else 0) +
        nhNlBonus nh)) := by
  unfold nhNlPts
  dsimp only
  rw [withBonus_eq]

theorem nhNlPts_eq_spec (nh nl : ℚ) : nhNlPts nh nl = nhNlSpec nh nl := by
  rw [nhNlPts_eq]
  unfold nhNlSpec
  by_cases hpos : 0 < nh + nl
  · rw [if_pos hpos, if_pos hpos]
    have hb : ∃ n : ℤ, nhNlBonus nh = (n : ℚ) := by
      unfold nhNlBonus
      split_ifs
      · exact ⟨3, by norm_num⟩
      · exact ⟨2, by norm_num⟩
      · exact ⟨0, by norm_num⟩
    obtain ⟨n, hn⟩ := hb
    rw [hn, round1_add_int, round1_add_int, round1_round1]
  · rw [if_neg hpos, if_neg hpos]

theorem nhNlBonus_mono {nh1 nh2 : ℚ} (h : nh1 ≤ nh2) : nhNlBonus nh1 ≤ nhNlBonus nh2 := by
  unfold nhNlBonus
  by_cases h1 : 100 ≤ nh1
  · rw [if_pos h1, if_pos (le_trans h1 h)]
  · rw [if_neg h1]
    by_cases h3 : 50 ≤ nh1
    · rw [if_pos h3]
      by_cases h5 : 100 ≤ nh2
      · rw [if_pos h5]
        norm_num
      · rw [if_neg h5, if_pos (le_trans h3 h)]
    · rw [if_neg h3]
      by_cases h5 : 100 ≤ nh2
      · rw [if_pos h5]
        norm_num
      · rw [if_neg h5]
        by_cases h6 : 50 ≤ nh2
        · rw [if_pos h6]
          norm_num
        · rw [if_neg h6]

theorem nhNl_base_mono {nh1 nh2 nl : ℚ} (h0 : 0 ≤ nh1) (h12 : nh1 ≤ nh2) (hnl : 0 ≤ nl) :
    (if 0 < nh1 + nl then round1 (nh1 / (nh1 + nl) * (wNhNl - 3)) else 0) ≤
      (if 0 < nh2 + nl then round1 (nh2 / (nh2 + nl) * (wNhNl - 3)) else 0) := by
  have hw : (0 : ℚ) ≤ wNhNl - 3 := by norm_num [wNhNl]
  by_cases h1 : 0 < nh1 + nl
  · have h2 : 0 < nh2 + nl := by linarith
    rw [if_pos h1, if_pos h2]
    apply round1_mono
    apply mul_le_mul_of_nonneg_right _ hw
    rw [div_le_div_iff₀ h1 h2]
    nlinarith
  · rw [if_neg h1]
    by_cases h2 : 0 < nh2 + nl
    · rw [if_pos h2]
      apply round1_nonneg
      exact mul_nonneg (div_nonneg (by linarith) (le_of_lt h2)) hw
    · rw [if_neg h2]

theorem nhNlPts_mono {nh1 nh2 nl : ℚ} (h0 : 0 ≤ nh1) (h12 : nh1 ≤ nh2) (hnl : 0 ≤ nl) :
    nhNlPts nh1 nl ≤ nhNlPts nh2 nl := by
  rw [nhNlPts_eq, nhNlPts_eq, jsMin_eq_min, jsMin_eq_min]
  apply min_le_min le_rfl
  apply round1_mono
  exact add_le_add (nhNl_base_mono h0 h12 hnl) (nhNlBonus_mono h12)

/-- Claim C5: the NH/NL factor of `calcExposure` equals the specification
formula — the NH share of `weight − bonusCeiling` (0 on a zero denominator)
plus the `≥100`/`≥50` bonus, clamped to the ceiling 13 — and, for any fixed
non-negative low count, it is monotone non-decreasing in the high count. -/
theorem nhNl_formula_and_mono :
    (∀ nh nl : ℚ, nhNlPts nh nl = nhNlSpec nh nl) ∧
    (∀ i b s, ((calcExposure i b s).components[3]?).map Comp.pts =
      some (nhNlPts (jsOr b.newHigh 0) (jsOr b.newLow 0))) ∧
    (∀ nh1 nh2 nl : ℚ, 0 ≤ nh1 → nh1 ≤ nh2 → 0 ≤ nl →
      nhNlPts nh1 nl ≤ nhNlPts nh2 nl) := by
  refine ⟨nhNlPts_eq_spec, ?_, fun nh1 nh2 nl h0 h12 hnl => nhNlPts_mono h0 h12 hnl⟩
  intro i b s
  rfl

/-- Witness for C5: at the concrete counts (60, 40) against (120, 40) the
factor rises from 8 to 10.5 points, and the formula equality holds there. -/
theorem nhNl_formula_and_mono_witness :
    nhNlPts 60 40 = nhNlSpec 60 40 ∧
    (0 : ℚ) ≤ 60 ∧ (60 : ℚ) ≤ 120 ∧ (0 : ℚ) ≤ 40 ∧
    nhNlPts 60 40 ≤ nhNlPts 120 40 ∧
    nhNlPts 60 40 = 8 ∧ nhNlPts 120 40 = 21 / 2 := by
  refine ⟨nhNl_formula_and_mono.1 60 40, by norm_num, by norm_num, by norm_num,
    nhNl_formula_and_mono.2.2 60 120 40 (by norm_num) (by norm_num) (by norm_num),
    by norm_num [nhNlPts, jsMin, round1, jsRound, wNhNl],
    by norm_num [nhNlPts, jsMin, round1, jsRound, wNhNl]⟩

/-! ## C10: per-component and total score bounds -/

theorem s1Step_bounds (acc : ℚ) (idx : IndexRow) :
    acc ≤ s1Step acc idx ∧ s1Step acc idx ≤ acc + perIdx1 := by
  unfold s1Step
  dsimp only
  split_ifs <;> constructor <;>
    norm_num [perIdx1, halfIdx1, round2, jsRound, wEma21]

theorem s1_fold_bounds (l : List IndexRow) (acc : ℚ) :
    acc ≤ l.foldl s1Step acc ∧ l.foldl s1Step acc ≤ acc + l.length * perIdx1 := by
  induction l generalizing acc with
  | nil => simp
  | cons x xs ih =>
    obtain ⟨h1, h2⟩ := s1Step_bounds acc x
    obtain ⟨h3, h4⟩ := ih (s1Step acc x)
    constructor
    · exact le_trans h1 h3
    · calc (x :: xs).foldl s1Step acc = xs.foldl s1Step (s1Step acc x) := by rw [List.foldl_cons]
        _ ≤ s1Step acc x + xs.length * perIdx1 := h4
        _ ≤ acc + perIdx1 + xs.length * perIdx1 := by linarith
        _ = acc + (x :: xs).length * perIdx1 := by
            rw [List.length_cons]
            push_cast
            ring

theorem s1Pts_bounds (indices : List IndexRow) (hlen : indices.length ≤ 3) :
    0 ≤ s1Pts indices ∧ s1Pts indices ≤ wEma21 := by
  obtain ⟨h1, h2⟩ := s1_fold_bounds indices 0
  have hp : (0 : ℚ) ≤ perIdx1 := by norm_num [perIdx1, round2, jsRound, wEma21]
  have hle : indices.foldl s1Step 0 ≤ 3 * perIdx1 := by
    have : (indices.length : ℚ) * perIdx1 ≤ 3 * perIdx1 := by
      apply mul_le_mul_of_nonneg_right _ hp
      exact_mod_cast hlen
    linarith
  constructor
  · rw [s1Pts]
    exact round1_nonneg h1
  · rw [s1Pts]
    calc round1 (indices.foldl s1Step 0) ≤ round1 (3 * perIdx1) := round1_mono hle
      _ = wEma21 := by norm_num [perIdx1, round2, round1, jsRound, wEma21]

theorem s2Step_bounds (acc : ℚ) (idx : IndexRow) :
    acc ≤ s2Step acc idx ∧ s2Step acc idx ≤ acc + perIdx2 := by
  unfold s2Step
  split_ifs <;> constructor <;>
    norm_num [perIdx2, round2, jsRound, wSma50]

theorem s2_fold_bounds (l : List IndexRow) (acc : ℚ) :
    acc ≤ l.foldl s2Step acc ∧ l.foldl s2Step acc ≤ acc + l.length * perIdx2 := by
  induction l generalizing acc with
  | nil => simp
  | cons x xs ih =>
    obtain ⟨h1, h2⟩ := s2Step_bounds acc x
    obtain ⟨h3, h4⟩ := ih (s2Step acc x)
    constructor
    · exact le_trans h1 h3
    · calc (x :: xs).foldl s2Step acc = xs.foldl s2Step (s2Step acc x) := by rw [List.foldl_cons]
        _ ≤ s2Step acc x + xs.length * perIdx2 := h4
        _ ≤ acc + perIdx2 + xs.length * perIdx2 := by linarith
        _ = acc + (x :: xs).length * perIdx2 := by
            rw [List.length_cons]
            push_cast
            ring

theorem s2Pts_bounds (indices : List IndexRow) (hlen : indices.length ≤ 3) :
    0 ≤ s2Pts indices ∧ s2Pts indices ≤ wSma50 := by
  obtain ⟨h1, h2⟩ := s2_fold_bounds indices 0
  have hp : (0 : ℚ) ≤ perIdx2 := by norm_num [perIdx2, round2, jsRound, wSma50]
  have hle : indices.foldl s2Step 0 ≤ 3 * perIdx2 := by
    have : (indices.length : ℚ) * perIdx2 ≤ 3 * perIdx2 := by
      apply mul_le_mul_of_nonneg_right _ hp
      exact_mod_cast hlen
    linarith
  constructor
  · rw [s2Pts]
    exact round1_nonneg h1
  · rw [s2Pts]
    calc round1 (indices.foldl s2Step 0) ≤ round1 (3 * perIdx2) := round1_mono hle
      _ = wSma50 := by norm_num [perIdx2, round2, round1, jsRound, wSma50]

theorem torakuPts_bounds (t : ℚ) : 0 ≤ torakuPts t ∧ torakuPts t ≤ wToraku := by
  unfold torakuPts
  split_ifs <;> constructor <;> norm_num [wToraku]

theorem jsMin_bounds {a x : ℚ} (ha : 0 ≤ a) (hx : 0 ≤ x) :
    0 ≤ jsMin a x ∧ jsMin a x ≤ a := by
  unfold jsMin
  split_ifs with h
  · exact ⟨ha, le_rfl⟩
  · exact ⟨hx, by linarith⟩

theorem nhNlPts_bounds {nh nl : ℚ} (hnh : 0 ≤ nh) (hnl : 0 ≤ nl) :
    0 ≤ nhNlPts nh nl ∧ nhNlPts nh nl ≤ wNhNl := by
  rw [nhNlPts_eq]
  have hbase : 0 ≤ (if 0 < nh + nl then round1 (nh / (nh + nl) * (wNhNl - 3)) else 0) := by
    split_ifs with h
    · apply round1_nonneg
      apply mul_nonneg (div_nonneg hnh (le_of_lt h))
      norm_num [wNhNl]
    · exact le_rfl
  have hbonus : 0 ≤ nhNlBonus nh := by
    unfold nhNlBonus
    split_ifs <;> norm_num
  have hx : 0 ≤ round1 ((if 0 < nh + nl then round1 (nh / (nh + nl) * (wNhNl - 3)) else 0) +
      nhNlBonus nh) := round1_nonneg (by linarith)
  exact jsMin_bounds (by norm_num [wNhNl]) hx

theorem advPctPts_bounds (ap : ℚ) : 0 ≤ advPctPts ap ∧ advPctPts ap ≤ wAdvPct := by
  unfold advPctPts
  split_ifs <;> constructor <;> norm_num [wAdvPct]

theorem ratio01 (a b : ℕ) (hab : a ≤ b) :
    0 ≤ (if 0 < b then (a : ℚ) / (b : ℚ) else 0) ∧
      (if 0 < b then (a : ℚ) / (b : ℚ) else 0) ≤ 1 := by
  split_ifs with h
  · have hb : (0 : ℚ) < (b : ℚ) := by exact_mod_cast h
    constructor
    · positivity
    · rw [div_le_one hb]
      exact_mod_cast hab
  · norm_num

theorem sectorBreadth_clamp (r avg : ℚ) (hr0 : 0 ≤ r) (hr1 : r ≤ 1) :
    0 ≤ jsMin wSectorBreadth (if 20 ≤ avg then round1 (r * (wSectorBreadth - 5)) + 5
        else round1 (r * (wSectorBreadth - 5))) ∧
      jsMin wSectorBreadth (if 20 ≤ avg then round1 (r * (wSectorBreadth - 5)) + 5
        else round1 (r * (wSectorBreadth - 5))) ≤ wSectorBreadth := by
  have h0 : 0 ≤ round1 (r * (wSectorBreadth - 5)) := by
    apply round1_nonneg
    apply mul_nonneg hr0
    norm_num [wSectorBreadth]
  have hX : 0 ≤ (if 20 ≤ avg then round1 (r * (wSectorBreadth - 5)) + 5
      else round1 (r * (wSectorBreadth - 5))) := by
    split_ifs
    · linarith
    · exact h0
  exact jsMin_bounds (by norm_num [wSectorBreadth]) hX

theorem sectorPts_bounds (sectors : List SectorRow) :
    0 ≤ sectorPts sectors ∧ sectorPts sectors ≤ wSectorBreadth := by
  unfold sectorPts
  dsimp only
  apply sectorBreadth_clamp
  · exact (ratio01 _ _ (List.length_filter_le _ _)).1
  · exact (ratio01 _ _ (List.length_filter_le _ _)).2

theorem calcExposure_components_eq (i : List IndexRow) (b : Breadth) (s : List SectorRow) :
    (calcExposure i b s).components =
      [⟨"Index×21EMA", s1Pts i, wEma21, none⟩,
       ⟨"Index×50SMA", s2Pts i, wSma50, none⟩,
       ⟨"騰落レシオ(25)", torakuPts (jsOr b.toraku25 0), wToraku, torakuWarning (jsOr b.toraku25 0)⟩,
       ⟨"NH/NL比率", nhNlPts (jsOr b.newHigh 0) (jsOr b.newLow 0), wNhNl, none⟩,
       ⟨"値上がり率", advPctPts (jsOr b.advPct 0), wAdvPct, none⟩,
       ⟨"Sector Breadth", sectorPts s, wSectorBreadth, none⟩] := rfl

theorem calcExposure_score_eq (i : List IndexRow) (b : Breadth) (s : List SectorRow) :
    (calcExposure i b s).score =
      if s1Pts i = 0 then 0
      else round1 (jsMin 100 (0 + s1Pts i + s2Pts i + torakuPts (jsOr b.toraku25 0) +
        nhNlPts (jsOr b.newHigh 0) (jsOr b.newLow 0) + advPctPts (jsOr b.advPct 0) +
        sectorPts s)) := rfl

/-- Claim C10: for inputs with at most 3 index rows and non-negative
new-high/new-low counts, every component of the exposure breakdown scores
between 0 and its weight ceiling (the per-index shares being rounded to two
decimals, the one-decimal rounding of each factor keeps it under the
ceiling), and the displayed score lies in [0, 100]. -/
theorem calcExposure_in_bounds (indices : List IndexRow) (b : Breadth)
    (sectors : List SectorRow) (hlen : indices.length ≤ 3)
    (hnh : 0 ≤ jsOr b.newHigh 0) (hnl : 0 ≤ jsOr b.newLow 0) :
    (∀ c ∈ (calcExposure indices b sectors).components, 0 ≤ c.pts ∧ c.pts ≤ c.max) ∧
    0 ≤ (calcExposure indices b sectors).score ∧
    (calcExposure indices b sectors).score ≤ 100 := by
  have h1 := s1Pts_bounds indices hlen
  have h2 := s2Pts_bounds indices hlen
  have h3 := torakuPts_bounds (jsOr b.toraku25 0)
  have h4 := nhNlPts_bounds hnh hnl
  have h5 := advPctPts_bounds (jsOr b.advPct 0)
  have h6 := sectorPts_bounds sectors
  refine ⟨?_, ?_, ?_⟩
  · intro c hc
    rw [calcExposure_components_eq] at hc
    simp only [List.mem_cons, List.not_mem_nil, or_false] at hc
    rcases hc with rfl | rfl | rfl | rfl | rfl | rfl <;> exact ⟨by tauto, by tauto⟩
  · rw [calcExposure_score_eq]
    split_ifs with hks
    · exact le_refl 0
    · apply round1_nonneg
      unfold jsMin
      split_ifs <;> linarith [h1.1, h2.1, h3.1, h4.1, h5.1, h6.1]
  · rw [calcExposure_score_eq]
    split_ifs with hks
    · norm_num
    · have hmin : jsMin 100 (0 + s1Pts indices + s2Pts indices +
          torakuPts (jsOr b.toraku25 0) + nhNlPts (jsOr b.newHigh 0) (jsOr b.newLow 0) +
          advPctPts (jsOr b.advPct 0) + sectorPts sectors) ≤ 100 := by
        unfold jsMin
        split_ifs with h
        · exact le_refl 100
        · linarith
      calc round1 _ ≤ round1 100 := round1_mono hmin
        _ = 100 := by norm_num [round1, jsRound]

/-- Witness for C10: the bounds at a concrete three-index input. -/
theorem calcExposure_in_bounds_witness :
    ([(⟨some 2, some 1⟩ : IndexRow), ⟨some 0, some (-1)⟩, ⟨some (-3), some 2⟩].length ≤ 3 ∧
      0 ≤ jsOr (some 120) 0 ∧ 0 ≤ jsOr (some 30) 0) ∧
    ((∀ c ∈ (calcExposure [⟨some 2, some 1⟩, ⟨some 0, some (-1)⟩, ⟨some (-3), some 2⟩]
        ⟨some 95, some 120, some 30, some 48⟩
        [⟨some ("A"), some 40, some 2, some 10⟩]).components, 0 ≤ c.pts ∧ c.pts ≤ c.max) ∧
      0 ≤ (calcExposure [⟨some 2, some 1⟩, ⟨some 0, some (-1)⟩, ⟨some (-3), some 2⟩]
        ⟨some 95, some 120, some 30, some 48⟩
        [⟨some ("A"), some 40, some 2, some 10⟩]).score ∧
      (calcExposure [⟨some 2, some 1⟩, ⟨some 0, some (-1)⟩, ⟨some (-3), some 2⟩]
        ⟨some 95, some 120, some 30, some 48⟩
        [⟨some ("A"), some 40, some 2, some 10⟩]).score ≤ 100) := by
  refine ⟨⟨by norm_num, by norm_num [jsOr], by norm_num [jsOr]⟩, ?_⟩
  exact calcExposure_in_bounds _ _ _ (by norm_num) (by norm_num [jsOr]) (by norm_num [jsOr])

/-! ## Character-level infrastructure

Strings manipulated by the CSV layer are modelled as `List Char`. -/

/-- JavaScript whitespace, as far as `trim` and `\s` are concerned (the
ASCII part; the exotic Unicode spaces never occur in this data). -/
def isWS (c : Char) : Bool :=
  c == ' ' || c == '\t' || c == '\n' || c == '\r' || c == '\x0b' || c == '\x0c'

/-- `s.trim()` on a character list. -/
def jsTrim (l : List Char) : List Char :=
  ((l.dropWhile isWS).reverse.dropWhile isWS).reverse

/-- Truthiness of `s.trim()`: some non-whitespace character exists. -/
def hasNonWS (l : List Char) : Bool := l.any (fun c => !(isWS c))

/-- Decimal digits of a natural number, JavaScript `String(n)` for naturals.
The fuel argument makes the recursion structural; `n + 1` units always
suffice. -/
def natDigitsAux : ℕ → ℕ → List Char
  | 0, _ => []
  | fuel + 1, n =>
    if n < 10 then [Nat.digitChar n]
    else natDigitsAux fuel (n / 10) ++ [Nat.digitChar (n % 10)]

def natDigits (n : ℕ) : List Char := natDigitsAux (n + 1) n

/-- Numeric value of a digit list (used for `parseInt` on an all-digit run). -/
def digitsVal (l : List Char) : ℕ :=
  l.foldl (fun acc c => 10 * acc + (c.toNat - '0'.toNat)) 0

/-! ## CSV line and field splitters (`portfolio.js`, `splitCsvLines` / `splitRow`)

`splitCsvLines` walks the text once: a quote toggles the in-quotes flag and
is kept verbatim in the current line, a doubled quote inside quotes is kept
as the two characters, a newline outside quotes ends the line, a carriage
return outside quotes is dropped, and a trailing line is kept only when its
trim is truthy.  `splitRow` applies the same quote rule to one line,
consuming the quotes and splitting on unquoted commas. -/

def slAux (lines : List (List Char)) (cur : List Char) (inQ : Bool) :
    List Char → List (List Char)
  | [] => if hasNonWS cur then lines ++ [cur] else lines
  | c :: rest =>
    if c = '"' then
      if inQ then
        if rest.head? = some '"' then slAux lines (cur ++ ['"', '"']) true rest.tail
        else slAux lines (cur ++ ['"']) false rest
      else slAux lines (cur ++ ['"']) true rest
    else if c = '\n' then
      (if inQ then slAux lines (cur ++ [c]) inQ rest
       else slAux (lines ++ [cur]) [] false rest)
    else if c = '\r' then
      (if inQ then slAux lines (cur ++ [c]) inQ rest
       else slAux lines cur false rest)
    else slAux lines (cur ++ [c]) inQ rest
  termination_by l => l.length
  decreasing_by all_goals simp [List.length_tail] <;> omega

def splitCsvLines (text : List Char) : List (List Char) := slAux [] [] false text

def srAux (fs : List (List Char)) (f : List Char) (q : Bool) :
    List Char → List (List Char)
  | [] => fs ++ [f]
  | c :: rest =>
    if c = '"' then
      if q then
        if rest.head? = some '"' then srAux fs (f ++ ['"']) true rest.tail
        else srAux fs f false rest
      else srAux fs f true rest
    else if c = ',' then
      (if q then srAux fs (f ++ [c]) q rest else srAux (fs ++ [f]) [] false rest)
    else srAux fs (f ++ [c]) q rest
  termination_by l => l.length
  decreasing_by all_goals simp [List.length_tail] <;> omega

def splitRow (line : List Char) : List (List Char) := srAux [] [] false line

/-! ## C4: CSV round trip -/

/-- The tokenizer's escaping convention: double each embedded quote. -/
def escQ : List Char → List Char
  | [] => []
  | c :: rest => if c = '"' then '"' :: '"' :: escQ rest else c :: escQ rest

/-- Encode one field: wrap in double quotes, doubling embedded quotes. -/
def encodeField (s : List Char) : List Char := '"' :: (escQ s ++ ['"'])

theorem escQ_quote (t : List Char) : escQ ('"' :: t) = '"' :: '"' :: escQ t := by
  simp [escQ]

theorem escQ_other {c : Char} (hc : ¬ c = '"') (t : List Char) :
    escQ (c :: t) = c :: escQ t := by
  simp [escQ, hc]

theorem slAux_quoted (s : List Char) : ∀ lines cur,
    slAux lines cur true (escQ s ++ ['"']) = lines ++ [cur ++ escQ s ++ ['"']] := by
  induction s with
  | nil =>
    intro lines cur
    have hq : hasNonWS (cur ++ ['"']) = true := by
      simp [hasNonWS, List.any_append, isWS]
    show slAux lines cur true ('"' :: []) = _
    simp only [slAux, if_pos rfl, if_true, List.head?_nil, reduceCtorEq, if_neg,
      hq, escQ]
    simp

  | cons c t ih =>
    intro lines cur
    by_cases hc : c = '"'
    · subst hc
      rw [escQ_quote]
      show slAux lines cur true ('"' :: ('"' :: escQ t) ++ ['"']) = _
      simp only [slAux, if_pos rfl, if_true, List.cons_append, List.head?_cons,
        Option.some.injEq, List.tail_cons]
      rw [ih lines (cur ++ ['"', '"'])]
      simp
    · rw [escQ_other hc]
      show slAux lines cur true (c :: (escQ t ++ ['"'])) = _
      rw [slAux]
      simp only [if_neg hc]
      by_cases hn : c = '\n'
      · rw [if_pos hn, if_true, ih lines (cur ++ [c])]
        simp
      · rw [if_neg hn]
        by_cases hr : c = '\r'
        · rw [if_pos hr, if_true, ih lines (cur ++ [c])]
          simp
        · rw [if_neg hr, ih lines (cur ++ [c])]
          simp

theorem srAux_quoted (s : List Char) : ∀ fs f,
    srAux fs f true (escQ s ++ ['"']) = fs ++ [f ++ s] := by
  induction s with
  | nil =>
    intro fs f
    show srAux fs f true ('"' :: []) = _
    simp only [srAux, if_pos rfl, if_true, List.head?_nil, reduceCtorEq, if_neg]
    simp
  | cons c t ih =>
    intro fs f
    by_cases hc : c = '"'
    · subst hc
      rw [escQ_quote]
      show srAux fs f true ('"' :: ('"' :: escQ t) ++ ['"']) = _
      simp only [srAux, if_pos rfl, if_true, List.cons_append, List.head?_cons,
        Option.some.injEq, List.tail_cons]
      rw [ih fs (f ++ ['"'])]
      simp
    · rw [escQ_other hc]
      show srAux fs f true (c :: (escQ t ++ ['"'])) = _
      rw [srAux]
      simp only [if_neg hc]
      by_cases hm : c = ','
      · rw [if_pos hm, if_true, ih fs (f ++ [c])]
        simp
      · rw [if_neg hm, ih fs (f ++ [c])]
        simp

theorem splitCsvLines_encode (s : List Char) :
    splitCsvLines (encodeField s) = [encodeField s] := by
  rw [splitCsvLines, encodeField]
  rw [slAux]
  rw [if_pos rfl, if_neg Bool.false_ne_true]
  simp only [List.nil_append]
  rw [slAux_quoted s [] ['"']]
  simp [encodeField]

theorem splitRow_encode (s : List Char) : splitRow (encodeField s) = [s] := by
  rw [splitRow, encodeField]
  rw [srAux]
  rw [if_pos rfl, if_neg Bool.false_ne_true]
  rw [srAux_quoted s [] []]
  simp

/-- Claim C4: a field containing a comma, a newline and an embedded quote,
once encoded by the escaping convention (wrap in quotes, double each
embedded quote), is split by `splitCsvLines` into exactly one raw line, and
`splitRow` on that line returns exactly the original field. -/
theorem csv_roundtrip (s : List Char) (hc : ',' ∈ s) (hn : '\n' ∈ s)
    (hq : '"' ∈ s) :
    (splitCsvLines (encodeField s)).map splitRow = [[s]] := by
  rw [splitCsvLines_encode, List.map_singleton, splitRow_encode]

/-- Witness for C4: the field `a,b"c<newline>d`. -/
theorem csv_roundtrip_witness :
    (',' ∈ ['a', ',', 'b', '"', 'c', '\n', 'd'] ∧
      '\n' ∈ ['a', ',', 'b', '"', 'c', '\n', 'd'] ∧
      '"' ∈ ['a', ',', 'b', '"', 'c', '\n', 'd']) ∧
    (splitCsvLines (encodeField ['a', ',', 'b', '"', 'c', '\n', 'd'])).map splitRow =
      [[['a', ',', 'b', '"', 'c', '\n', 'd']]] := by
  refine ⟨⟨by decide, by decide, by decide⟩, ?_⟩
  exact csv_roundtrip ['a', ',', 'b', '"', 'c', '\n', 'd'] (by decide) (by decide) (by decide)

/-! ## C7: header deduplication (`sheets.js`, `parseCsv`)

`headerCounts` is a map from trimmed header name to the number of
occurrences seen so far; `if (!headerCounts[key])` treats a missing entry
(count 0) as unseen, the first occurrence keeps the trimmed name and every
later one gets `_n` appended, `n` being its occurrence number. -/

def dedupAux (cnt : List Char → ℕ) : List (List Char) → List (List Char)
  | [] => []
  | h :: t =>
    let k := jsTrim h
    let c := cnt k
    if c = 0 then
      k :: dedupAux (fun x => if x = k then 1 else cnt x) t
    else
      (k ++ '_' :: natDigits (c + 1)) :: dedupAux (fun x => if x = k then c + 1 else cnt x) t

def dedupHeaders (hs : List (List Char)) : List (List Char) :=
  dedupAux (fun _ => 0) hs

/-- The specification's view of deduplication: the key of the `i`-th header
is its trimmed name when no earlier header has the same trimmed name, and
the trimmed name suffixed with `_n` when it is the `n`-th occurrence. -/
def dedupSpec (pre : List (List Char)) : List (List Char) → List (List Char)
  | [] => []
  | h :: t =>
    let k := jsTrim h
    let c := (pre.filter (fun p => jsTrim p = k)).length
    (if c = 0 then k else k ++ '_' :: natDigits (c + 1)) :: dedupSpec (pre ++ [h]) t

theorem dedupAux_eq_spec : ∀ (t : List (List Char)) (cnt : List Char → ℕ)
    (pre : List (List Char)),
    (∀ k, cnt k = (pre.filter (fun p => jsTrim p = k)).length) →
    dedupAux cnt t = dedupSpec pre t := by
  intro t
  induction t with
  | nil =>
    intro cnt pre hinv
    rfl
  | cons h t ih =>
    intro cnt pre hinv
    simp only [dedupAux, dedupSpec]
    have hsingle : ∀ x, ¬ x = jsTrim h →
        (List.filter (fun p => jsTrim p = x) [h]).length = 0 := by
      intro x hx
      have hne : ¬ (jsTrim h = x) := fun he => hx he.symm
      simp [List.filter, hne]
    have hsingle2 : (List.filter (fun p => jsTrim p = jsTrim h) [h]).length = 1 := by
      simp [List.filter]
    by_cases hc : cnt (jsTrim h) = 0
    · rw [if_pos hc, if_pos (by rw [← hinv (jsTrim h)]; exact hc)]
      congr 1
      apply ih
      intro x
      rw [List.filter_append, List.length_append]
      by_cases hx : x = jsTrim h
      · rw [if_pos hx]
        have h1 : (pre.filter (fun p => jsTrim p = x)).length = 0 := by
          rw [← hinv x, hx]
          exact hc
        rw [h1, hx, hsingle2]
      · rw [if_neg hx, hinv x, hsingle x hx]
        simp
    · rw [if_neg hc, if_neg (by rw [← hinv (jsTrim h)]; exact hc)]
      congr 1
      · rw [hinv (jsTrim h)]
      · apply ih
        intro x
        rw [List.filter_append, List.length_append]
        by_cases hx : x = jsTrim h
        · rw [if_pos hx]
          rw [hx, hinv (jsTrim h), hsingle2]
        · rw [if_neg hx, hinv x, hsingle x hx]
          simp

/-- Claim C7: the header deduplication of `parseCsv` agrees, on every header
row, with the specification — the first occurrence of a trimmed name keeps
that name and the `n`-th later occurrence is suffixed `_n`, with a per-name
counter that is never reset — and on the row `A, B, A, A` it produces the
keys `A, B, A_2, A_3` in order. -/
theorem dedupHeaders_spec :
    (∀ hs, dedupHeaders hs = dedupSpec [] hs) ∧
    dedupHeaders [("A").data, ("B").data, ("A").data, ("A").data] =
      [("A").data, ("B").data, ("A_2").data, ("A_3").data] := by
  constructor
  · intro hs
    exact dedupAux_eq_spec hs (fun _ => 0) [] (fun k => rfl)
  · decide

/-! ## C8: cell typing of the record builder (`sheets.js`, `parseCsv`) -/

/-- Does the second list start with the first? -/
def startsWithSeq : List Char → List Char → Bool
  | [], _ => true
  | _ :: _, [] => false
  | p :: ps, c :: cs => p == c && startsWithSeq ps cs

/-- Does the pattern occur anywhere in the list? -/
def containsSeq (pat : List Char) : List Char → Bool
  | [] => startsWithSeq pat []
  | c :: cs => startsWithSeq pat (c :: cs) || containsSeq pat cs

/-- First character is a decimal digit. -/
def firstIsDig : List Char → Bool
  | c :: _ => c.isDigit
  | [] => false

/-- Tail of the year-month-day regex after the second dash:
`-\d` (one more digit must follow the dash). -/
def ymdTail2 : List Char → Bool
  | h2 :: r4 => (h2 == '-') && firstIsDig r4
  | [] => false

/-- Tail of the year-month-day regex after `\d{4}-`: a one- or two-digit
month, a dash, then at least one day digit. -/
def ymdTail : List Char → Bool
  | f :: r2 =>
    f.isDigit &&
      (match r2 with
       | g :: r3 => if g == '-' then firstIsDig r3 else g.isDigit && ymdTail2 r3
       | [] => false)
  | [] => false

/-- The prefix regex `^\d{4}-\d{1,2}-\d{1,2}` of the date guard. -/
def matchYMD : List Char → Bool
  | a :: b :: c :: d :: e :: rest =>
    a.isDigit && b.isDigit && c.isDigit && d.isDigit && (e == '-') && ymdTail rest
  | _ => false

/-- Consume a `\d{1,2}/` prefix, returning what follows the slash. -/
def chunk12Slash : List Char → Option (List Char)
  | a :: b :: r =>
    if b == '/' then (if a.isDigit then some r else none)
    else
      match r with
      | c :: r2 => if a.isDigit && b.isDigit && (c == '/') then some r2 else none
      | [] => none
  | _ => none

/-- Length of the leading decimal-digit run. -/
def digitRunLen (s : List Char) : ℕ := (s.takeWhile Char.isDigit).length

/-- The prefix regex `^\d{1,2}/\d{1,2}/\d{k,...}`: two short digit chunks
separated by slashes, then at least `minDigits` digits (`minDigits` is 4 in
`sheets.js` and 2 in `market.js`). -/
def matchMDY (minDigits : ℕ) (s : List Char) : Bool :=
  match chunk12Slash s with
  | some r1 =>
    match chunk12Slash r1 with
    | some r2 => minDigits ≤ digitRunLen r2
    | none => false
  | none => false

/-- The anchored regex `^\d{5}$`. -/
def isFiveDigits (s : List Char) : Bool := s.length == 5 && s.all Char.isDigit

/-- The regex `/date/i.test(h)`: the header contains `date`, ignoring case. -/
def containsDateCI (h : List Char) : Bool :=
  containsSeq (['d', 'a', 't', 'e']) (h.map Char.toLower)

/-- A JavaScript number as produced by `Number(string)`. -/
inductive JSNum where
  | nan
  | posInf
  | negInf
  | finite (q : ℚ)
deriving DecidableEq

/-- A typed cell value of the record builder, and the value type of the
reconciler's rows: empty cell, number (possibly the infinities that
`Number` can return and `isNaN` lets through), or string. -/
inductive JSVal where
  | jnull
  | jnum (q : ℚ)
  | jposInf
  | jnegInf
  | jstr (s : List Char)
deriving DecidableEq

def zpow10 (e : ℤ) : ℚ := (10 : ℚ) ^ e

def digitsToNatQ (l : List Char) : ℚ := (digitsVal l : ℚ)

/-- Value of a fraction-digit run. -/
def fracVal (l : List Char) : ℚ := (digitsVal l : ℚ) / 10 ^ l.length

/-- Exponent suffix `(e|E)[+|-]digits` of a decimal literal; `[]` means no
exponent (0). -/
def parseExp : List Char → Option ℤ
  | [] => some 0
  | c :: r =>
    if c == 'e' || c == 'E' then
      match r with
      | '+' :: d => if !d.isEmpty && d.all Char.isDigit then some (digitsVal d) else none
      | '-' :: d => if !d.isEmpty && d.all Char.isDigit then some (-(digitsVal d : ℤ)) else none
      | d => if !d.isEmpty && d.all Char.isDigit then some (digitsVal d) else none
    else none

/-- An unsigned decimal literal `digits[.digits][exp]` or `.digits[exp]`,
consumed entirely. -/
def parseDecimal (s : List Char) : Option ℚ :=
  let ds := s.takeWhile Char.isDigit
  let rest := s.drop ds.length
  if ds.isEmpty then
    match rest with
    | '.' :: r2 =>
      let fs := r2.takeWhile Char.isDigit
      if fs.isEmpty then none
      else (parseExp (r2.drop fs.length)).map (fun e => fracVal fs * zpow10 e)
    | _ => none
  else
    match rest with
    | '.' :: r2 =>
      let fs := r2.takeWhile Char.isDigit
      (parseExp (r2.drop fs.length)).map (fun e => (digitsToNatQ ds + fracVal fs) * zpow10 e)
    | r2 => (parseExp r2).map (fun e => digitsToNatQ ds * zpow10 e)

def jsNumberUnsigned (s : List Char) (sgn : ℚ) : JSNum :=
  if s = ('I' :: 'n' :: 'f' :: 'i' :: 'n' :: 'i' :: 't' :: 'y' :: []) then
    (if sgn = 1 then .posInf else .negInf)
  else
    match parseDecimal s with
    | some q => .finite (sgn * q)
    | none => .nan

/-- `Number(string)`, the ECMAScript `StringNumericLiteral` conversion:
whitespace is trimmed, the empty string is 0, an optional sign precedes
either the literal `Infinity` or a decimal literal with optional fraction
and exponent.  The non-decimal radix forms (`0x…`, `0o…`, `0b…`) are not
modelled and map to `NaN`; exact rationals stand in for IEEE doubles. -/
def jsNumber (raw : List Char) : JSNum :=
  let s := jsTrim raw
  if s.isEmpty then .finite 0
  else
    match s with
    | '+' :: r => jsNumberUnsigned r 1
    | '-' :: r => jsNumberUnsigned r (-1)
    | r => jsNumberUnsigned r 1

/-- Cell typing of `parseCsv`: empty → `null`; date-like prefix
(`YYYY-M-D` or `M/D/YYYY`) → raw trimmed string; five digits under a header
containing `date` → raw trimmed string; otherwise the `Number` conversion
when it is not `NaN`, else the trimmed string. -/
def cellValue (header : List Char) (raw : List Char) : JSVal :=
  let trimmed := jsTrim raw
  if trimmed.isEmpty then .jnull
  else if matchYMD trimmed || matchMDY 4 trimmed then .jstr trimmed
  else if isFiveDigits trimmed && containsDateCI header then .jstr trimmed
  else
    match jsNumber trimmed with
    | .nan => .jstr trimmed
    | .finite q => .jnum q
    | .posInf => .jposInf
    | .negInf => .jnegInf

/-- Claim C8, counterexample: the cell `Infinity` under a header `X` is
stored as the number `Infinity`, because the code guards with `isNaN`
rather than `isFinite`; the claim, as stated, requires it to be stored as
the trimmed string. -/
theorem cellValue_infinity_counterexample :
    cellValue (("X").data) (("Infinity").data) = .jposInf ∧
    ¬ cellValue (("X").data) (("Infinity").data) = .jstr (("Infinity").data) := by
  constructor <;> decide

/-- Claim C8, amended: cell typing follows the stated precedence — an
empty or whitespace-only cell becomes null; a date-pattern cell, or a
five-digit cell under a header containing `date` (case-insensitive), is
kept as the trimmed raw string; every other cell is stored as a number if
and only if the `Number`-style conversion does not yield `NaN` (so the
non-finite `Infinity` values are stored as numbers too, the code using
`isNaN` rather than a finiteness test), and otherwise as the trimmed
original string. -/
theorem cellValue_precedence (header raw : List Char) :
    ((jsTrim raw).isEmpty = true → cellValue header raw = .jnull) ∧
    ((jsTrim raw).isEmpty = false →
      (matchYMD (jsTrim raw) || matchMDY 4 (jsTrim raw)) = true →
      cellValue header raw = .jstr (jsTrim raw)) ∧
    ((jsTrim raw).isEmpty = false →
      (matchYMD (jsTrim raw) || matchMDY 4 (jsTrim raw)) = false →
      (isFiveDigits (jsTrim raw) && containsDateCI header) = true →
      cellValue header raw = .jstr (jsTrim raw)) ∧
    ((jsTrim raw).isEmpty = false →
      (matchYMD (jsTrim raw) || matchMDY 4 (jsTrim raw)) = false →
      (isFiveDigits (jsTrim raw) && containsDateCI header) = false →
      ((∀ q, cellValue header raw = .jnum q ↔ jsNumber (jsTrim raw) = .finite q) ∧
        (cellValue header raw = .jstr (jsTrim raw) ↔ jsNumber (jsTrim raw) = .nan) ∧
        (cellValue header raw = .jposInf ↔ jsNumber (jsTrim raw) = .posInf) ∧
        (cellValue header raw = .jnegInf ↔ jsNumber (jsTrim raw) = .negInf))) := by
  refine ⟨?_, ?_, ?_, ?_⟩
  · intro h1
    simp [cellValue, h1]
  · intro h1 h2
    simp [cellValue, h1, h2]
  · intro h1 h2 h3
    simp [cellValue, h1, h2, h3]
  · intro h1 h2 h3
    have hnempty : ¬ (jsTrim raw).isEmpty = true := by simp [h1]
    have hstr : ¬ (jsTrim raw) = [] := by
      intro h
      rw [h] at h1
      simp [List.isEmpty] at h1
    refine ⟨?_, ?_, ?_, ?_⟩ <;>
      (try intro q) <;>
      (cases hjs : jsNumber (jsTrim raw) <;>
        simp [cellValue, h1, h2, h3, hjs])

/-- Witness for the amended C8: the date-like cell `2024-01-02` is kept as
a raw string. -/
theorem cellValue_precedence_witness :
    ((jsTrim (("2024-01-02").data)).isEmpty = false ∧
      (matchYMD (jsTrim (("2024-01-02").data)) ||
        matchMDY 4 (jsTrim (("2024-01-02").data))) = true) ∧
    cellValue (("X").data) (("2024-01-02").data) = .jstr (jsTrim (("2024-01-02").data)) := by
  refine ⟨⟨by decide, by decide⟩, ?_⟩
  exact (cellValue_precedence (("X").data) (("2024-01-02").data)).2.1 (by decide) (by decide)

/-! ## C3: the cross-source reconciler (`screener.js`, ALL tab of
`renderScreenTable`)

A reconciled record is an association list from field name to `JSVal`.
When a ticker reappears in a later source, `Object.keys(row)` is walked and
a field is copied into the accumulated record exactly when the accumulated
value is missing, `null` or the empty string and the new value is neither
`null` nor the empty string. -/

/-- A record (JavaScript object): field name to value, first binding wins. -/
abbrev Row := List (List Char × JSVal)

def lookupVal : Row → List Char → Option JSVal
  | [], _ => none
  | (k', v) :: t, k => if k' = k then some v else lookupVal t k

/-- `existing[key] = v`: replace the first binding, or append. -/
def setVal : Row → List Char → JSVal → Row
  | [], k, v => [(k, v)]
  | (k', v') :: t, k, v => if k' = k then (k, v) :: t else (k', v') :: setVal t k v

/-- `v == null || v === ''` on a stored value (a missing key is `undefined`
and handled at the call site). -/
def emptyVal : JSVal → Bool
  | .jnull => true
  | .jstr s => s.isEmpty
  | _ => false

/-- `existing[key] == null || existing[key] === ''` for a looked-up field. -/
def slotEmpty (ex : Row) (k : List Char) : Bool :=
  match lookupVal ex k with
  | none => true
  | some w => emptyVal w

/-- One step of the merge loop over `Object.keys(row)`. -/
def mergeStep (ex : Row) (kv : List Char × JSVal) : Row :=
  if slotEmpty ex kv.1 && !(emptyVal kv.2) then setVal ex kv.1 kv.2 else ex

/-- Merge the new row's fields into the accumulated record. -/
def mergeInto (ex row : Row) : Row := row.foldl mergeStep ex

/-- The lazy hyperlink-formula matcher
`/=HYPERLINK\(".*?","(.+?)"\)/i`, modelled on the whole-cell form the sheet
produces: `=HYPERLINK("url","text")`, the keyword matched case-insensitively. -/
def hyperlinkText (s : List Char) : Option (List Char) :=
  if (s.take 12).map Char.toLower = ("=hyperlink(\"").data then
    let rest := s.drop 12
    let url := rest.takeWhile (fun c => !(c == '"'))
    match rest.drop url.length with
    | '"' :: ',' :: '"' :: r2 =>
      let txt := r2.takeWhile (fun c => !(c == '"'))
      if txt.isEmpty then none
      else
        match r2.drop txt.length with
        | ['"', ')'] => some txt
        | _ => none
    | _ => none
  else none

/-- Decimal fraction digits of a rational in `[0, 1)`, up to `fuel` places
(JavaScript prints at most 17 significant digits; the data's numbers are
short). -/
def fracDigitsAux : ℕ → ℚ → List Char
  | 0, _ => []
  | fuel + 1, q =>
    if q = 0 then []
    else
      let d := jsRound (q * 10 - 1 / 2)
      Nat.digitChar d.toNat :: fracDigitsAux fuel (q * 10 - d)

/-- `String(v)` for the numbers occurring in this data (integers exactly;
a short decimal expansion otherwise). -/
def ratToChars (q : ℚ) : List Char :=
  let sign : List Char := if q < 0 then ['-'] else []
  let a := |q|
  let ip := ⌊a⌋.toNat
  let fr := a - ip
  sign ++ natDigits ip ++ (if fr = 0 then [] else '.' :: fracDigitsAux 20 fr)

/-- `stripFormula` of `screener.js` on a possibly missing cell value:
`null`/`undefined` give the empty string, a hyperlink formula gives its
display text, anything else its string form. -/
def stripFormula (v : Option JSVal) : List Char :=
  match v with
  | none => []
  | some .jnull => []
  | some (.jstr s) => (hyperlinkText s).getD s
  | some (.jnum q) => ratToChars q
  | some .jposInf => ("Infinity").data
  | some .jnegInf => ("-Infinity").data

/-- Merge one row of source `sk` into the dedup state (ticker → record in
first-seen order). -/
def dedupStep (sk : List Char) (st : List (List Char × Row)) (row : Row) :
    List (List Char × Row) :=
  let tk := stripFormula (lookupVal row (("Ticker").data))
  if tk.isEmpty then st
  else if st.any (fun p => p.1 = tk) then
    st.map (fun p => if p.1 = tk then (p.1, mergeInto p.2 row) else p)
  else
    st ++ [(tk, row ++ [(("_screenKey").data, .jstr sk)])]

/-- The deduplicated ALL view: fold the sources in order, then all rows in
row order, merging repeated tickers. -/
def buildDedup (data : List (List Char × List Row)) : List Row :=
  (data.foldl (fun st p => p.2.foldl (dedupStep p.1) st) []).map Prod.snd

theorem lookupVal_setVal_eq (ex : Row) (k : List Char) (v : JSVal) :
    lookupVal (setVal ex k v) k = some v := by
  induction ex with
  | nil => simp [setVal, lookupVal]
  | cons p t ih =>
    obtain ⟨k', v'⟩ := p
    rw [setVal]
    by_cases hk : k' = k
    · rw [if_pos hk, lookupVal, if_pos rfl]
    · rw [if_neg hk, lookupVal, if_neg hk]
      exact ih

theorem lookupVal_setVal_ne (ex : Row) {k' k : List Char} (v : JSVal)
    (h : ¬ k' = k) : lookupVal (setVal ex k' v) k = lookupVal ex k := by
  induction ex with
  | nil => simp [setVal, lookupVal, h]
  | cons p t ih =>
    obtain ⟨k0, v0⟩ := p
    rw [setVal]
    by_cases hk : k0 = k'
    · rw [if_pos hk, lookupVal, lookupVal]
      subst hk
      rw [if_neg h, if_neg h]
    · rw [if_neg hk, lookupVal, lookupVal]
      by_cases h2 : k0 = k
      · rw [if_pos h2, if_pos h2]
      · rw [if_neg h2, if_neg h2]
        exact ih

theorem mergeStep_self (ex : Row) (kv : List Char × JSVal) (k : List Char)
    (hfull : slotEmpty ex k = false) :
    lookupVal (mergeStep ex kv) k = lookupVal ex k := by
  rw [mergeStep]
  by_cases hk : kv.1 = k
  · rw [hk, hfull]
    simp
  · split_ifs with h
    · exact lookupVal_setVal_ne ex kv.2 hk
    · rfl

theorem slotEmpty_of_lookup {ex : Row} {k : List Char} {v : JSVal}
    (hv : lookupVal ex k = some v) (hne : emptyVal v = false) :
    slotEmpty ex k = false := by
  rw [slotEmpty, hv]
  exact hne

/-- Populated fields are never overwritten by the merge. -/
theorem mergeInto_preserves (row : Row) : ∀ (ex : Row) (k : List Char) (v : JSVal),
    lookupVal ex k = some v → emptyVal v = false →
    lookupVal (mergeInto ex row) k = some v := by
  induction row with
  | nil =>
    intro ex k v hv _
    exact hv
  | cons kv t ih =>
    intro ex k v hv hne
    rw [mergeInto, List.foldl_cons]
    have hstep : lookupVal (mergeStep ex kv) k = some v := by
      rw [mergeStep_self ex kv k (slotEmpty_of_lookup hv hne)]
      exact hv
    exact ih (mergeStep ex kv) k v hstep hne

/-- An empty or missing field is filled from the first non-empty value the
new row supplies for it. -/
theorem mergeInto_fills (row : Row) : ∀ (ex : Row) (k : List Char) (v : JSVal),
    slotEmpty ex k = true → lookupVal row k = some v → emptyVal v = false →
    lookupVal (mergeInto ex row) k = some v := by
  induction row with
  | nil =>
    intro ex k v _ hrow _
    simp [lookupVal] at hrow
  | cons kv t ih =>
    intro ex k v hempty hrow hne
    obtain ⟨k1, v1⟩ := kv
    rw [mergeInto, List.foldl_cons]
    rw [lookupVal] at hrow
    by_cases hk : k1 = k
    · rw [if_pos hk] at hrow
      injection hrow with hv1
      subst hv1
      have hguard : mergeStep ex (k1, v1) = setVal ex k1 v1 := by
        rw [mergeStep]
        rw [if_pos]
        simp only
        rw [hk, hempty, hne]
        rfl
      have hlook : lookupVal (mergeStep ex (k1, v1)) k = some v1 := by
        rw [hguard, hk]
        exact lookupVal_setVal_eq ex k v1
      exact mergeInto_preserves t (mergeStep ex (k1, v1)) k v1 hlook hne
    · rw [if_neg hk] at hrow
      have hempty2 : slotEmpty (mergeStep ex (k1, v1)) k = true := by
        rw [mergeStep]
        split_ifs with h
        · rw [slotEmpty, lookupVal_setVal_ne ex v1 hk]
          exact hempty
        · exact hempty
      exact ih (mergeStep ex (k1, v1)) k v hempty2 hrow hne

/-- Claim C3: in the deduplicated ALL view, a later source fills only
fields that are still `null`/empty in the accumulated record, never
overwriting populated ones; on the two-source example — ticker 1234 with
`X = null, Y = 5` in source A and `X = 9, Y = 1` in the later source B —
the merged record carries `X = 9` and `Y = 5`. -/
theorem reconciler_first_source_wins :
    (∀ (ex row : Row) (k : List Char) (v : JSVal),
      lookupVal ex k = some v → emptyVal v = false →
      lookupVal (mergeInto ex row) k = some v) ∧
    (∀ (ex row : Row) (k : List Char) (v : JSVal),
      slotEmpty ex k = true → lookupVal row k = some v → emptyVal v = false →
      lookupVal (mergeInto ex row) k = some v) ∧
    ((buildDedup
        [(("A").data,
          [[(("Ticker").data, .jstr (("1234").data)), (("X").data, .jnull),
            (("Y").data, .jnum 5)]]),
         (("B").data,
          [[(("Ticker").data, .jstr (("1234").data)), (("X").data, .jnum 9),
            (("Y").data, .jnum 1)]])]).map
      (fun r => (lookupVal r (("X").data), lookupVal r (("Y").data))) =
      [(some (.jnum 9), some (.jnum 5))]) := by
  refine ⟨fun ex row k v hv hne => mergeInto_preserves row ex k v hv hne,
    fun ex row k v he hr hne => mergeInto_fills row ex k v he hr hne, ?_⟩
  decide

/-- Witness for C3: the preservation half applied to a concrete populated
field, and the filling half applied to a concrete empty field. -/
theorem reconciler_first_source_wins_witness :
    (lookupVal [(("Y").data, .jnum 5)] (("Y").data) = some (.jnum 5) ∧
      emptyVal (.jnum 5) = false ∧
      lookupVal (mergeInto [(("Y").data, .jnum 5)] [(("Y").data, .jnum 1)])
        (("Y").data) = some (.jnum 5)) ∧
    (slotEmpty [(("X").data, .jnull)] (("X").data) = true ∧
      lookupVal (mergeInto [(("X").data, .jnull)] [(("X").data, .jnum 9)])
        (("X").data) = some (.jnum 9)) := by
  refine ⟨⟨by decide, by decide, ?_⟩, ⟨by decide, ?_⟩⟩
  · exact reconciler_first_source_wins.1 [(("Y").data, .jnum 5)]
      [(("Y").data, .jnum 1)] (("Y").data) (.jnum 5) (by decide) (by decide)
  · exact reconciler_first_source_wins.2.1 [(("X").data, .jnull)]
      [(("X").data, .jnum 9)] (("X").data) (.jnum 9) (by decide) (by decide) (by decide)

/-! ## C6: NaN-last numeric column sort (`screener.js`, header sort)

For a non-text column the comparator parses both sides (`none` = `NaN`),
returns 0 / 1 / −1 on `NaN` pairs without consulting the direction flag,
and `(na - nb) * dir` otherwise; `Array.prototype.sort` is modelled by the
stable insertion sort, ordering `a` before `b` when the comparator is
non-positive. -/

def jsCmpNum (dir : ℤ) : Option ℚ → Option ℚ → ℚ
  | none, none => 0
  | none, some _ => 1
  | some _, none => -1
  | some x, some y => (x - y) * (dir : ℚ)

/-- `a` may stay before `b` under the comparator. -/
def sortLe (dir : ℤ) (a b : Option ℚ) : Prop := jsCmpNum dir a b ≤ 0

instance (dir : ℤ) : DecidableRel (sortLe dir) := fun a b => by
  unfold sortLe
  infer_instance

/-- Direction flag: ascending is 1, descending −1. -/
def dirInt (asc : Bool) : ℤ := if asc then 1 else -1

instance (dir : ℤ) : IsTrans (Option ℚ) (sortLe dir) where
  trans := by
    intro a b c hab hbc
    cases a <;> cases b <;> cases c <;>
      simp only [sortLe, jsCmpNum] at * <;> nlinarith

instance (dir : ℤ) : IsTotal (Option ℚ) (sortLe dir) where
  total := by
    intro a b
    cases a <;> cases b <;> simp only [sortLe, jsCmpNum] <;> try norm_num
    rename_i x y
    rcases le_total ((x - y) * (dir : ℚ)) 0 with h | h
    · exact Or.inl h
    · right
      nlinarith

/-- The per-column numeric sort of the header-sort branch. -/
def headerSortNum (asc : Bool) (l : List (Option ℚ)) : List (Option ℚ) :=
  List.insertionSort (sortLe (dirInt asc)) l

/-- Claim C6: sorting `[3, null, 1]` ascending yields `[1, 3, null]` and
descending yields `[3, 1, null]`; in general, in the sorted output a record
with an unparseable value never precedes one with a parseable value — the
NaN-last tiebreak is not inverted by the direction flag. -/
theorem headerSort_nan_last :
    headerSortNum true [some 3, none, some 1] = [some 1, some 3, none] ∧
    headerSortNum false [some 3, none, some 1] = [some 3, some 1, none] ∧
    (∀ (asc : Bool) (l : List (Option ℚ)),
      (headerSortNum asc l).Pairwise (fun a b => a = none → b = none)) := by
  refine ⟨?_, ?_, ?_⟩
  · norm_num [headerSortNum, List.insertionSort, List.orderedInsert, sortLe, jsCmpNum, dirInt]
  · norm_num [headerSortNum, List.insertionSort, List.orderedInsert, sortLe, jsCmpNum, dirInt]
  · intro asc l
    have hs := List.sorted_insertionSort (sortLe (dirInt asc)) l
    apply List.Pairwise.imp _ hs
    intro a b hab ha
    subst ha
    cases b with
    | none => rfl
    | some y =>
      simp only [sortLe, jsCmpNum] at hab
      norm_num at hab

/-! ## C9: character and rendering lemmas -/

theorem isDigit_toNat {c : Char} (h : c.isDigit = true) :
    48 ≤ c.toNat ∧ c.toNat ≤ 57 := by
  simp [Char.isDigit] at h
  obtain ⟨h1, h2⟩ := h
  exact ⟨by exact_mod_cast h1, by exact_mod_cast h2⟩

theorem isDigit_ne {c x : Char} (h : c.isDigit = true) (hx : x.isDigit = false) :
    (c == x) = false := by
  rw [beq_eq_false_iff_ne]
  intro he
  rw [he, hx] at h
  cases h

theorem isDigit_ne_eq {c x : Char} (h : c.isDigit = true) (hx : x.isDigit = false) :
    ¬ c = x := by
  intro he
  rw [he, hx] at h
  cases h

theorem isWS_of_isDigit {c : Char} (h : c.isDigit = true) : isWS c = false := by
  rw [isWS]
  have h48 := isDigit_toNat h
  by_contra hw
  rw [Bool.not_eq_false, Bool.or_eq_true, Bool.or_eq_true, Bool.or_eq_true,
    Bool.or_eq_true, Bool.or_eq_true] at hw
  simp only [beq_iff_eq] at hw
  rcases hw with ((((rfl | rfl) | rfl) | rfl) | rfl) | rfl <;> simp at h48 <;> omega

theorem digitChar_isDigit {n : ℕ} (h : n < 10) : (Nat.digitChar n).isDigit = true := by
  interval_cases n <;> decide

theorem natDigitsAux_small {fuel n : ℕ} (hf : 0 < fuel) (hn : n < 10) :
    natDigitsAux fuel n = [Nat.digitChar n] := by
  cases fuel with
  | zero => omega
  | succ m => simp [natDigitsAux, hn]

theorem natDigits_small {n : ℕ} (hn : n < 10) : natDigits n = [Nat.digitChar n] :=
  natDigitsAux_small (Nat.succ_pos n) hn

theorem natDigits_two {n : ℕ} (h10 : 10 ≤ n) (h99 : n ≤ 99) :
    natDigits n = [Nat.digitChar (n / 10), Nat.digitChar (n % 10)] := by
  rw [natDigits]
  obtain ⟨m, rfl⟩ : ∃ m, n = m + 1 := ⟨n - 1, by omega⟩
  rw [natDigitsAux]
  rw [if_neg (by omega)]
  rw [natDigitsAux_small (by omega) (by omega)]
  rfl

theorem natDigitsAux_all_digit : ∀ (fuel n : ℕ), ∀ c ∈ natDigitsAux fuel n,
    c.isDigit = true := by
  intro fuel
  induction fuel with
  | zero =>
    intro n c hc
    simp [natDigitsAux] at hc
  | succ m ih =>
    intro n c hc
    rw [natDigitsAux] at hc
    split_ifs at hc with h
    · simp at hc
      rw [hc]
      exact digitChar_isDigit h
    · rw [List.mem_append] at hc
      rcases hc with hc | hc
      · exact ih (n / 10) c hc
      · simp at hc
        rw [hc]
        exact digitChar_isDigit (Nat.mod_lt n (by omega))

theorem natDigits_all_digit (n : ℕ) : ∀ c ∈ natDigits n, c.isDigit = true :=
  natDigitsAux_all_digit (n + 1) n

theorem natDigits_ne_nil (n : ℕ) : natDigits n ≠ [] := by
  rw [natDigits, natDigitsAux]
  split_ifs
  · simp
  · simp

theorem natDigits_le99_len {n : ℕ} (h : n ≤ 99) :
    1 ≤ (natDigits n).length ∧ (natDigits n).length ≤ 2 := by
  rcases Nat.lt_or_ge n 10 with h10 | h10
  · rw [natDigits_small h10]
    simp
  · rw [natDigits_two h10 h]
    simp

theorem takeWhile_all {p : Char → Bool} : ∀ (l : List Char),
    (∀ c ∈ l, p c = true) → l.takeWhile p = l := by
  intro l h
  induction l with
  | nil => rfl
  | cons x t ih =>
    rw [List.takeWhile_cons, h x (List.mem_cons_self x t)]
    rw [ih (fun c hc => h c (List.mem_cons_of_mem x hc))]
    simp

theorem digitsVal_le99 : ∀ (l : List Char), l.length ≤ 2 →
    (∀ c ∈ l, c.isDigit = true) → digitsVal l ≤ 99 := by
  intro l hlen hd
  match l with
  | [] => exact (by norm_num [digitsVal])
  | [a] =>
    have := isDigit_toNat (hd a (by simp))
    simp [digitsVal, List.foldl]
    omega
  | [a, b] =>
    have h1 := isDigit_toNat (hd a (by simp))
    have h2 := isDigit_toNat (hd b (by simp))
    simp [digitsVal, List.foldl]
    omega
  | a :: b :: c :: t => simp at hlen

/-- `jsParseIntNat` on an all-digit run of length at most 2 is below 100. -/
theorem jsParseIntNat_le99 (l : List Char) (hlen : l.length ≤ 2)
    (hd : ∀ c ∈ l, c.isDigit = true) : digitsVal (l.takeWhile Char.isDigit) ≤ 99 := by
  rw [takeWhile_all l hd]
  exact digitsVal_le99 l hlen hd

/-! ### Trimming lemmas -/

theorem dropWhile_all_false {p : Char → Bool} : ∀ (l : List Char),
    (∀ c ∈ l, p c = false) → l.dropWhile p = l := by
  intro l h
  cases l with
  | nil => rfl
  | cons x t =>
    rw [List.dropWhile_cons, h x (List.mem_cons_self x t)]
    simp

theorem jsTrim_no_ws (l : List Char) (h : ∀ c ∈ l, isWS c = false) :
    jsTrim l = l := by
  rw [jsTrim, dropWhile_all_false l h,
    dropWhile_all_false l.reverse (fun c hc => h c (List.mem_reverse.mp hc)),
    List.reverse_reverse]

theorem dropWhile_head_false {p : Char → Bool} : ∀ (l : List Char) (c : Char),
    (l.dropWhile p).head? = some c → p c = false := by
  intro l
  induction l with
  | nil =>
    intro c hc
    simp [List.dropWhile] at hc
  | cons x t ih =>
    intro c hc
    rw [List.dropWhile_cons] at hc
    split_ifs at hc with hx
    · exact ih c hc
    · simp at hc
      rw [← hc]
      exact Bool.not_eq_true _ ▸ (by simpa using hx)

theorem dropWhile_head_ok {p : Char → Bool} (l : List Char)
    (h : ∀ c, l.head? = some c → p c = false) : l.dropWhile p = l := by
  cases l with
  | nil => rfl
  | cons x t =>
    rw [List.dropWhile_cons, h x rfl]
    simp

theorem dropWhile_getLast {p : Char → Bool} : ∀ (l : List Char),
    l.dropWhile p ≠ [] → (l.dropWhile p).getLast? = l.getLast? := by
  intro l
  induction l with
  | nil => intro h; rfl
  | cons x t ih =>
    intro h
    rw [List.dropWhile_cons]
    rw [List.dropWhile_cons] at h
    split_ifs at h with hx
    · rw [if_pos hx, ih h]
      have ht : t ≠ [] := by
        intro he
        rw [he] at h
        simp [List.dropWhile] at h
      cases t with
      | nil => exact absurd rfl ht
      | cons y u => rw [List.getLast?_cons_cons]
    · rw [if_neg hx]

theorem jsTrim_head (l : List Char) (c : Char) (h : (jsTrim l).head? = some c) :
    isWS c = false := by
  rw [jsTrim] at h
  rw [List.head?_reverse] at h
  have hne : ((l.dropWhile isWS).reverse.dropWhile isWS) ≠ [] := by
    intro he
    rw [he] at h
    simp at h
  rw [dropWhile_getLast _ hne] at h
  rw [List.getLast?_reverse] at h
  exact dropWhile_head_false l c h

theorem jsTrim_getLast (l : List Char) (c : Char) (h : (jsTrim l).getLast? = some c) :
    isWS c = false := by
  rw [jsTrim, List.getLast?_reverse] at h
  exact dropWhile_head_false _ c h

theorem jsTrim_idem (l : List Char) : jsTrim (jsTrim l) = jsTrim l := by
  have h1 : (jsTrim l).dropWhile isWS = jsTrim l :=
    dropWhile_head_ok _ (jsTrim_head l)
  rw [jsTrim, h1]
  have h2 : (jsTrim l).reverse.dropWhile isWS = (jsTrim l).reverse := by
    apply dropWhile_head_ok
    intro c hc
    rw [List.head?_reverse] at hc
    exact jsTrim_getLast l c hc
  rw [h2, List.reverse_reverse]

/-! ## C9: the short date label (`market.js`, `formatDateLabel`) -/

/-- JavaScript `String.prototype.split` with a one-character separator. -/
def splitCh (sep : Char) : List Char → List (List Char)
  | [] => [[]]
  | c :: r =>
    if c = sep then [] :: splitCh sep r
    else
      match splitCh sep r with
      | h :: t => (c :: h) :: t
      | [] => [[c]]

theorem splitCh_ne_nil (sep : Char) : ∀ l, splitCh sep l ≠ [] := by
  intro l
  cases l with
  | nil => simp [splitCh]
  | cons c r =>
    rw [splitCh]
    split_ifs
    · simp
    · cases h : splitCh sep r <;> simp

theorem splitCh_no_sep (sep : Char) : ∀ l, (∀ c ∈ l, ¬ c = sep) →
    splitCh sep l = [l] := by
  intro l
  induction l with
  | nil => intro h; rfl
  | cons c r ih =>
    intro h
    rw [splitCh, if_neg (h c (List.mem_cons_self c r))]
    rw [ih (fun x hx => h x (List.mem_cons_of_mem c hx))]

theorem splitCh_pre (sep : Char) : ∀ (pre rest : List Char),
    (∀ c ∈ pre, ¬ c = sep) →
    splitCh sep (pre ++ sep :: rest) = pre :: splitCh sep rest := by
  intro pre
  induction pre with
  | nil =>
    intro rest h
    rw [List.nil_append, splitCh, if_pos rfl]
  | cons p pre' ih =>
    intro rest h
    rw [List.cons_append, splitCh, if_neg (h p (List.mem_cons_self p pre'))]
    rw [ih rest (fun x hx => h x (List.mem_cons_of_mem p hx))]

/-- Spreadsheet serial date to civil month and day: the serial counts days
from 1899-12-30, so `serial + 693899` is the day count from the civil
era base 0000-03-01 used by the standard days-to-date algorithm; this
models `new Date(Date.UTC(1899, 11, 30 + serial))` followed by
`getUTCMonth() + 1` / `getUTCDate()`. -/
def sdDoe (serial : ℕ) : ℕ := (serial + 693899) % 146097

def sdYoe (serial : ℕ) : ℕ :=
  (sdDoe serial - sdDoe serial / 1460 + sdDoe serial / 36524 - sdDoe serial / 146096) / 365

def sdDoy (serial : ℕ) : ℕ :=
  sdDoe serial - (365 * sdYoe serial + sdYoe serial / 4 - sdYoe serial / 100)

def sdMp (serial : ℕ) : ℕ := (5 * sdDoy serial + 2) / 153

def serialToMD (serial : ℕ) : ℕ × ℕ :=
  (if sdMp serial < 10 then sdMp serial + 3 else sdMp serial - 9,
    sdDoy serial - (153 * sdMp serial + 2) / 5 + 1)

theorem serialToMD_bounds (serial : ℕ) :
    1 ≤ (serialToMD serial).1 ∧ (serialToMD serial).1 ≤ 12 ∧
      1 ≤ (serialToMD serial).2 ∧ (serialToMD serial).2 ≤ 31 := by
  unfold serialToMD sdMp sdDoy sdYoe sdDoe
  dsimp only
  split_ifs <;> omega

/-- The `M/D` label of a serial date. -/
def serialLabel (serial : ℕ) : List Char :=
  natDigits (serialToMD serial).1 ++ '/' :: natDigits (serialToMD serial).2

/-- `parseInt` on the digit-led strings this formatter feeds it: value of
the leading digit run. -/
def jsParseIntNat (l : List Char) : ℕ := digitsVal (l.takeWhile Char.isDigit)

/-- The anchored regex `^\d{1,2}/\d{1,2}$`. -/
def matchMDfull (s : List Char) : Bool :=
  match chunk12Slash s with
  | some r =>
    match r with
    | [c] => c.isDigit
    | [c, d] => c.isDigit && d.isDigit
    | _ => false
  | none => false

def isLeap (y : ℕ) : Bool := (y % 4 == 0 && y % 100 != 0) || y % 400 == 0

def daysInMonth (y m : ℕ) : ℕ :=
  if m = 2 then (if isLeap y then 29 else 28)
  else if m = 4 ∨ m = 6 ∨ m = 9 ∨ m = 11 then 30
  else 31

/-- The generic `new Date(string)` fallback, modelled by the ISO 8601
date-only forms the ECMAScript standard requires `Date.parse` to accept
(`YYYY`, `YYYY-MM`, `YYYY-MM-DD`, valid calendar dates, read as UTC;
implementation-specific extra formats are not modelled and yield an
invalid date), followed by `getMonth() + 1` and `getDate()` in a UTC
environment. -/
def isoDateParse (s : List Char) : Option (ℕ × ℕ) :=
  match splitCh '-' s with
  | [y] => if y.length == 4 && y.all Char.isDigit then some (1, 1) else none
  | [y, m] =>
    if y.length == 4 && y.all Char.isDigit && m.length == 2 && m.all Char.isDigit &&
        decide (1 ≤ digitsVal m) && decide (digitsVal m ≤ 12) then
      some (digitsVal m, 1)
    else none
  | [y, m, d] =>
    if y.length == 4 && y.all Char.isDigit && m.length == 2 && m.all Char.isDigit &&
        d.length == 2 && d.all Char.isDigit && decide (1 ≤ digitsVal m) &&
        decide (digitsVal m ≤ 12) && decide (1 ≤ digitsVal d) &&
        decide (digitsVal d ≤ daysInMonth (digitsVal y) (digitsVal m)) then
      some (digitsVal m, digitsVal d)
    else none
  | _ => none

/-- `formatDateLabel` on the trimmed string: five digits → serial date;
`YYYY-M-D…` prefix → `parseInt` of the dash parts 1 and 2; `M/D/YYYY…`
prefix → `parseInt` of the slash parts 0 and 1; already-short `M/D` →
unchanged; else the generic date fallback, or the string unchanged. -/
def fdlTrimmed (s : List Char) : List Char :=
  if s.length == 5 && s.all Char.isDigit then serialLabel (digitsVal s)
  else if matchYMD s then
    natDigits (jsParseIntNat ((splitCh '-' s).getD 1 [])) ++
      '/' :: natDigits (jsParseIntNat ((splitCh '-' s).getD 2 []))
  else if matchMDY 2 s then
    natDigits (jsParseIntNat ((splitCh '/' s).getD 0 [])) ++
      '/' :: natDigits (jsParseIntNat ((splitCh '/' s).getD 1 []))
  else if matchMDfull s then s
  else
    match isoDateParse s with
    | some (m, d) => natDigits m ++ '/' :: natDigits d
    | none => s

/-- `formatDateLabel`: a falsy (empty) input returns the empty string,
otherwise the input is stringified, trimmed and dispatched. -/
def formatDateLabel (l : List Char) : List Char :=
  if l.isEmpty then [] else fdlTrimmed (jsTrim l)

/-! ### A digit/slash label is a fixed point of the formatter -/

theorem all_digit_slash_false (A B : List Char) :
    ((A ++ '/' :: B).all Char.isDigit) = false := by
  have hs : ('/' : Char).isDigit = false := by decide
  simp [List.all_append, hs]

theorem matchYMD_label_false (A B : List Char) (h1 : 1 ≤ A.length)
    (h2 : A.length ≤ 2) : matchYMD (A ++ '/' :: B) = false := by
  have hs : ('/' : Char).isDigit = false := by decide
  rcases A with _ | ⟨a, _ | ⟨b, _ | ⟨c, t⟩⟩⟩
  · simp at h1
  · rcases B with _ | ⟨b1, _ | ⟨b2, _ | ⟨b3, r⟩⟩⟩ <;> simp [matchYMD, hs]
  · rcases B with _ | ⟨b1, _ | ⟨b2, r⟩⟩ <;> simp [matchYMD, hs]
  · simp at h2

theorem chunk12Slash_digits_none (B : List Char)
    (hBd : ∀ c ∈ B, c.isDigit = true) : chunk12Slash B = none := by
  have hsl : ('/' : Char).isDigit = false := by decide
  rcases B with _ | ⟨a, _ | ⟨b, r⟩⟩
  · rfl
  · rfl
  · have hb : (b == '/') = false :=
      isDigit_ne (hBd b (by simp)) hsl
    rcases r with _ | ⟨c, r2⟩
    · simp [chunk12Slash, hb]
    · have hc : (c == '/') = false :=
        isDigit_ne (hBd c (by simp)) hsl
      simp [chunk12Slash, hb, hc]

theorem chunk12Slash_label (A B : List Char) (h1 : 1 ≤ A.length) (h2 : A.length ≤ 2)
    (hAd : ∀ c ∈ A, c.isDigit = true) : chunk12Slash (A ++ '/' :: B) = some B := by
  have hsl : ('/' : Char).isDigit = false := by decide
  rcases A with _ | ⟨a, _ | ⟨b, _ | ⟨c, t⟩⟩⟩
  · simp at h1
  · simp [chunk12Slash, hAd a (by simp)]
  · have hb : (b == '/') = false := isDigit_ne (hAd b (by simp)) hsl
    simp [chunk12Slash, hb, hAd a (by simp), hAd b (by simp)]
  · simp at h2

theorem matchMDY_label_false (A B : List Char) (h1 : 1 ≤ A.length)
    (h2 : A.length ≤ 2) (hAd : ∀ c ∈ A, c.isDigit = true)
    (hBd : ∀ c ∈ B, c.isDigit = true) : matchMDY 2 (A ++ '/' :: B) = false := by
  rw [matchMDY, chunk12Slash_label A B h1 h2 hAd]
  simp [chunk12Slash_digits_none B hBd]

theorem no_dash_label (A B : List Char) (hAd : ∀ c ∈ A, c.isDigit = true)
    (hBd : ∀ c ∈ B, c.isDigit = true) : ∀ c ∈ A ++ '/' :: B, ¬ c = '-' := by
  intro c hc
  have hd : ('-' : Char).isDigit = false := by decide
  rcases List.mem_append.mp hc with h | h
  · exact isDigit_ne_eq (hAd c h) hd
  · rcases List.mem_cons.mp h with rfl | h
    · decide
    · exact isDigit_ne_eq (hBd c h) hd

theorem isoDateParse_label_none (A B : List Char) (hAd : ∀ c ∈ A, c.isDigit = true)
    (hBd : ∀ c ∈ B, c.isDigit = true) : isoDateParse (A ++ '/' :: B) = none := by
  rw [isoDateParse, splitCh_no_sep '-' _ (no_dash_label A B hAd hBd)]
  simp [all_digit_slash_false A B]

theorem label_fixed (A B : List Char) (h1 : 1 ≤ A.length) (h2 : A.length ≤ 2)
    (hAd : ∀ c ∈ A, c.isDigit = true) (hB : B ≠ [])
    (hBd : ∀ c ∈ B, c.isDigit = true) :
    fdlTrimmed (A ++ '/' :: B) = A ++ '/' :: B := by
  rw [fdlTrimmed]
  rw [if_neg (by simp [all_digit_slash_false A B])]
  rw [if_neg (by simp [matchYMD_label_false A B h1 h2])]
  rw [if_neg (by simp [matchMDY_label_false A B h1 h2 hAd hBd])]
  rcases B with _ | ⟨b1, _ | ⟨b2, _ | ⟨b3, r⟩⟩⟩
  · exact absurd rfl hB
  · rw [if_pos]
    rw [matchMDfull, chunk12Slash_label A [b1] h1 h2 hAd]
    simp [hBd b1 (by simp)]
  · rw [if_pos]
    rw [matchMDfull, chunk12Slash_label A [b1, b2] h1 h2 hAd]
    simp [hBd b1 (by simp), hBd b2 (by simp)]
  · rw [if_neg]
    · rw [isoDateParse_label_none A _ hAd hBd]
    · rw [matchMDfull, chunk12Slash_label A _ h1 h2 hAd]
      simp

theorem label_out_fixed (m d : ℕ) (hm : m ≤ 99) :
    jsTrim (natDigits m ++ '/' :: natDigits d) = natDigits m ++ '/' :: natDigits d ∧
    fdlTrimmed (natDigits m ++ '/' :: natDigits d) = natDigits m ++ '/' :: natDigits d := by
  have hA := natDigits_le99_len hm
  have hAd := natDigits_all_digit m
  have hBd := natDigits_all_digit d
  have hB := natDigits_ne_nil d
  constructor
  · apply jsTrim_no_ws
    intro c hc
    rcases List.mem_append.mp hc with h | h
    · exact isWS_of_isDigit (hAd c h)
    · rcases List.mem_cons.mp h with rfl | h
      · decide
      · exact isWS_of_isDigit (hBd c h)
  · exact label_fixed _ _ hA.1 hA.2 hAd hB hBd

/-! ### Inversion of the date regexes -/

theorem chunk12Slash_inv {s r : List Char} (h : chunk12Slash s = some r) :
    ∃ p, s = p ++ '/' :: r ∧ 1 ≤ p.length ∧ p.length ≤ 2 ∧
      (∀ c ∈ p, c.isDigit = true) := by
  rcases s with _ | ⟨a, _ | ⟨b, t⟩⟩
  · simp [chunk12Slash] at h
  · simp [chunk12Slash] at h
  · rw [chunk12Slash.eq_def] at h
    dsimp only at h
    by_cases hb : (b == '/') = true
    · rw [if_pos hb] at h
      split_ifs at h with ha
      simp only [Option.some.injEq] at h
      rw [beq_iff_eq] at hb
      refine ⟨[a], ?_, by simp, by simp, ?_⟩
      · rw [hb, h]
        rfl
      · intro c hc
        simp at hc
        rw [hc]
        exact ha
    · rw [if_neg hb] at h
      rcases t with _ | ⟨c, t2⟩
      · simp at h
      · dsimp only at h
        split_ifs at h with hcond
        simp only [Bool.and_eq_true, beq_iff_eq] at hcond
        obtain ⟨⟨ha, hbd⟩, hc⟩ := hcond
        simp only [Option.some.injEq] at h
        refine ⟨[a, b], ?_, by simp, by simp, ?_⟩
        · rw [hc, h]
          rfl
        · intro x hx
          simp at hx
          rcases hx with rfl | rfl
          · exact ha
          · exact hbd

theorem matchYMD_inv {s : List Char} (h : matchYMD s = true) :
    ∃ (y p1 rest : List Char), s = y ++ '-' :: (p1 ++ '-' :: rest) ∧
      (∀ c ∈ y, ¬ c = '-') ∧ (∀ c ∈ p1, ¬ c = '-') ∧
      p1.length ≤ 2 ∧ (∀ c ∈ p1, c.isDigit = true) := by
  have hdd : ('-' : Char).isDigit = false := by decide
  rcases s with _ | ⟨a, _ | ⟨b, _ | ⟨c, _ | ⟨d, _ | ⟨e, rest⟩⟩⟩⟩⟩
  · simp [matchYMD] at h
  · simp [matchYMD] at h
  · simp [matchYMD] at h
  · simp [matchYMD] at h
  · simp [matchYMD] at h
  · simp only [matchYMD, Bool.and_eq_true, beq_iff_eq] at h
    obtain ⟨⟨⟨⟨⟨ha, hb⟩, hc⟩, hd⟩, he⟩, htail⟩ := h
    subst he
    have hy : ∀ x ∈ [a, b, c, d], ¬ x = '-' := by
      intro x hx
      rcases List.mem_cons.mp hx with rfl | hx
      · exact isDigit_ne_eq ha hdd
      rcases List.mem_cons.mp hx with rfl | hx
      · exact isDigit_ne_eq hb hdd
      rcases List.mem_cons.mp hx with rfl | hx
      · exact isDigit_ne_eq hc hdd
      rcases List.mem_cons.mp hx with rfl | hx
      · exact isDigit_ne_eq hd hdd
      · simp at hx
    rcases rest with _ | ⟨f, r2⟩
    · simp [ymdTail] at htail
    · rw [ymdTail.eq_def] at htail
      dsimp only at htail
      rcases r2 with _ | ⟨g, r3⟩
      · simp at htail
      · dsimp only at htail
        simp only [Bool.and_eq_true] at htail
        obtain ⟨hf, hinner⟩ := htail
        by_cases hg : g = '-'
        · refine ⟨[a, b, c, d], [f], r3, ?_, hy, ?_, by simp, ?_⟩
          · rw [hg]
            rfl
          · intro x hx
            simp at hx
            rw [hx]
            exact isDigit_ne_eq hf hdd
          · intro x hx
            simp at hx
            rw [hx]
            exact hf
        · have hgf : (g == '-') = false := by simp [hg]
          rw [if_neg (by simp [hg])] at hinner
          simp only [Bool.and_eq_true] at hinner
          obtain ⟨hgd, htail2⟩ := hinner
          rcases r3 with _ | ⟨h2, r4⟩
          · simp [ymdTail2] at htail2
          · simp only [ymdTail2, Bool.and_eq_true, beq_iff_eq] at htail2
            obtain ⟨hh2, _⟩ := htail2
            refine ⟨[a, b, c, d], [f, g], r4, ?_, hy, ?_, by simp, ?_⟩
            · rw [hh2]
              rfl
            · intro x hx
              simp at hx
              rcases hx with rfl | rfl
              · exact isDigit_ne_eq hf hdd
              · exact isDigit_ne_eq hgd hdd
            · intro x hx
              simp at hx
              rcases hx with rfl | rfl
              · exact hf
              · exact hgd

theorem ymd_part1 {s : List Char} (h : matchYMD s = true) :
    ∃ p1, (splitCh '-' s).getD 1 [] = p1 ∧ p1.length ≤ 2 ∧
      (∀ c ∈ p1, c.isDigit = true) := by
  obtain ⟨y, p1, rest, heq, hy, hp1nd, hlen, hdig⟩ := matchYMD_inv h
  refine ⟨p1, ?_, hlen, hdig⟩
  rw [heq, splitCh_pre '-' y _ hy, splitCh_pre '-' p1 _ hp1nd]
  rfl

theorem isoDateParse_m_le {s : List Char} {m d : ℕ}
    (h : isoDateParse s = some (m, d)) : m ≤ 12 := by
  rw [isoDateParse] at h
  rcases hsp : splitCh '-' s with _ | ⟨y, _ | ⟨m', _ | ⟨d', _ | ⟨x, rest⟩⟩⟩⟩ <;>
    rw [hsp] at h <;> dsimp only at h
  · cases h
  · split_ifs at h with hc
    simp only [Option.some.injEq, Prod.mk.injEq] at h
    omega
  · split_ifs at h with hc
    simp only [Bool.and_eq_true, decide_eq_true_eq] at hc
    simp only [Option.some.injEq, Prod.mk.injEq] at h
    omega
  · split_ifs at h with hc
    simp only [Bool.and_eq_true, decide_eq_true_eq] at hc
    simp only [Option.some.injEq, Prod.mk.injEq] at h
    omega
  · cases h

/-! ### Every output of the formatter is one of its fixed points -/

theorem fdl_fixed_output (s : List Char) (hs : jsTrim s = s) :
    jsTrim (fdlTrimmed s) = fdlTrimmed s ∧
      fdlTrimmed (fdlTrimmed s) = fdlTrimmed s := by
  by_cases h1 : (s.length == 5 && s.all Char.isDigit) = true
  · have hout : fdlTrimmed s = serialLabel (digitsVal s) := by
      rw [fdlTrimmed, if_pos h1]
    rw [hout, serialLabel]
    have hb := serialToMD_bounds (digitsVal s)
    exact label_out_fixed _ _ (by omega)
  · by_cases h2 : matchYMD s = true
    · have hout : fdlTrimmed s =
          natDigits (jsParseIntNat ((splitCh '-' s).getD 1 [])) ++
            '/' :: natDigits (jsParseIntNat ((splitCh '-' s).getD 2 [])) := by
        rw [fdlTrimmed, if_neg h1, if_pos h2]
      rw [hout]
      obtain ⟨p1, hp1, hlen, hdig⟩ := ymd_part1 h2
      rw [hp1]
      apply label_out_fixed
      rw [jsParseIntNat]
      exact jsParseIntNat_le99 p1 hlen hdig
    · by_cases h3 : matchMDY 2 s = true
      · cases hc1 : chunk12Slash s with
        | none =>
          rw [matchMDY, hc1] at h3
          dsimp only at h3
          cases h3
        | some r1 =>
          cases hc2 : chunk12Slash r1 with
          | none =>
            rw [matchMDY, hc1] at h3
            dsimp only at h3
            rw [hc2] at h3
            dsimp only at h3
            cases h3
          | some r2 =>
            obtain ⟨p0, heq0, hl0, hl0b, hd0⟩ := chunk12Slash_inv hc1
            obtain ⟨p1, heq1, hl1, hl1b, hd1⟩ := chunk12Slash_inv hc2
            have hnos0 : ∀ c ∈ p0, ¬ c = '/' := by
              intro c hc
              exact isDigit_ne_eq (hd0 c hc) (by decide)
            have hnos1 : ∀ c ∈ p1, ¬ c = '/' := by
              intro c hc
              exact isDigit_ne_eq (hd1 c hc) (by decide)
            have hsplit : splitCh '/' s = p0 :: p1 :: splitCh '/' r2 := by
              rw [heq0, splitCh_pre '/' p0 _ hnos0, heq1,
                splitCh_pre '/' p1 _ hnos1]
            have hout : fdlTrimmed s =
                natDigits (jsParseIntNat ((splitCh '/' s).getD 0 [])) ++
                  '/' :: natDigits (jsParseIntNat ((splitCh '/' s).getD 1 [])) := by
              rw [fdlTrimmed, if_neg h1, if_neg h2, if_pos h3]
            rw [hout, hsplit]
            apply label_out_fixed
            rw [jsParseIntNat]
            exact jsParseIntNat_le99 p0 hl0b hd0
      · by_cases h4 : matchMDfull s = true
        · have hout : fdlTrimmed s = s := by
            rw [fdlTrimmed, if_neg h1, if_neg h2, if_neg h3, if_pos h4]
          rw [hout]
          exact ⟨hs, by rw [fdlTrimmed, if_neg h1, if_neg h2, if_neg h3, if_pos h4]⟩
        · cases hiso : isoDateParse s with
          | none =>
            have hout : fdlTrimmed s = s := by
              rw [fdlTrimmed, if_neg h1, if_neg h2, if_neg h3, if_neg h4, hiso]
            rw [hout]
            exact ⟨hs, by
              rw [fdlTrimmed, if_neg h1, if_neg h2, if_neg h3, if_neg h4, hiso]⟩
          | some md =>
            obtain ⟨m, d⟩ := md
            have hout : fdlTrimmed s = natDigits m ++ '/' :: natDigits d := by
              rw [fdlTrimmed, if_neg h1, if_neg h2, if_neg h3, if_neg h4, hiso]
            rw [hout]
            exact label_out_fixed m d (by have := isoDateParse_m_le hiso; omega)

/-- Claim C9: the short date label is idempotent — applying the formatter
twice gives the same string as applying it once, for every input — and
`2024-3-7` formats to `3/7`, the five-digit serial `46067` (which is
2026-02-14 from the sheet epoch 1899-12-30 UTC) formats to `2/14`, and an
unparseable input such as `hello` is returned unchanged. -/
theorem formatDateLabel_idem :
    (∀ l, formatDateLabel (formatDateLabel l) = formatDateLabel l) ∧
    formatDateLabel (("2024-3-7").data) = ("3/7").data ∧
    formatDateLabel (("46067").data) = ("2/14").data ∧
    formatDateLabel (("hello").data) = ("hello").data := by
  refine ⟨?_, by decide, by decide, by decide⟩
  intro l
  by_cases hl : l.isEmpty = true
  · have h0 : formatDateLabel l = [] := by rw [formatDateLabel, if_pos hl]
    rw [h0]
    rfl
  · have h0 : formatDateLabel l = fdlTrimmed (jsTrim l) := by
      rw [formatDateLabel, if_neg hl]
    rw [h0]
    obtain ⟨htrim, hfix⟩ := fdl_fixed_output (jsTrim l) (jsTrim_idem l)
    by_cases ho : (fdlTrimmed (jsTrim l)).isEmpty = true
    · rw [formatDateLabel, if_pos ho]
      rw [List.isEmpty_iff] at ho
      exact ho.symm
    · rw [formatDateLabel, if_neg ho, htrim, hfix]

end CloudDash
